import Mathlib

/-!
Verification of the `search-query-ebsco` repository.

The development shallowly embeds the two independent parts of the code base:

* `src/search_query/query.py` — the `Query` class: tree construction
  (`__init__`, `_build_query_tree`, `_create_term_nodes`), the mark-based
  structural validator (`_validate_tree_structure`), the field tables
  (`get_search_field_wos`, `get_search_field_pubmed`) and the WoS/PubMed
  serializers (`_print_query_wos`, `_print_query_pubmed`).
  Python `Node` objects are mutable and compared by identity, so the
  embedding uses an explicit heap: a `List Node`, with node ids as indices.
  `Node` itself and `Tree.remove_all_marks` live in `node.py`/`tree.py`,
  which are not part of the sources; they are modelled from the spec
  (see the doc comments on `Node` and `clearMarks`).

* `src/search_query/parser_validation.py` — the string linters:
  `QueryStringValidator.check_operator`,
  `EBSCOQueryStringValidator.filter_search_field` and
  `EBSCOQueryStringValidator.validate_token_position`.
  Query strings are embedded as `List Char`; the two regular expressions
  (`FAULTY_OPERATOR_REGEX` and `UNSUPPORTED_SEARCH_FIELD_REGEX`) are
  embedded as explicit left-to-right scanners over the character list, with
  `\b`/`\w` read in their ASCII meaning (`[A-Za-z0-9_]`).

Recursive traversals are written with an explicit fuel argument (structural
recursion on `Nat`), so that every definition evaluates by `decide`/`rfl`;
all call sites pass fuel that is proved (or checked) sufficient.
-/

/-! ## Character utilities

Python's `str.upper`/`str.lower` restricted to ASCII letters (the only case
mapping exercised by the operator and field-code tokens of this code base),
and the ASCII reading of the regex word-character class `\w`. -/

/-- Lower-case an ASCII upper-case letter; every other character is kept. -/
def low (c : Char) : Char :=
  if 65 ≤ c.toNat ∧ c.toNat ≤ 90 then Char.ofNat (c.toNat + 32) else c

/-- Upper-case an ASCII lower-case letter; every other character is kept.
Models Python `str.upper()` on the characters this code base manipulates. -/
def up (c : Char) : Char :=
  if 97 ≤ c.toNat ∧ c.toNat ≤ 122 then Char.ofNat (c.toNat - 32) else c

/-- ASCII reading of the regex word-character class: `[A-Za-z0-9_]`. -/
def isWordChar (c : Char) : Bool :=
  (65 ≤ c.toNat && c.toNat ≤ 90) || (97 ≤ c.toNat && c.toNat ≤ 122) ||
    (48 ≤ c.toNat && c.toNat ≤ 57) || (c.toNat == 95)

/-- Word-character test lifted to `Option Char`; a missing character (start
or end of the string) is not a word character. -/
def isWordCharO : Option Char → Bool
  | some c => isWordChar c
  | none => false

/-! ## The query tree model (`query.py`, with `Node` from the spec)

Python `Node` objects are mutable and aliasable, so the embedding works
with an explicit heap `List Node`; a node id is an index into the heap.
A Python `Tree` is just a root node, so a `Query` is embedded as the id of
its root node together with the ambient heap. -/

/-- Modelled from the spec: class `Node` of `node.py` (not among the
sources).  Spec §3: value (operator name or literal term), operator flag,
search-field tag, ordered children, and the transient `marked` flag used
only by the structural validator. -/
structure Node where
  value : String
  operator : Bool
  search_field : String
  children : List Nat
  marked : Bool
deriving Repr, DecidableEq

/-- Everything of a `Node` except the transient `marked` flag. -/
structure NodeCore where
  value : String
  operator : Bool
  search_field : String
  children : List Nat
deriving Repr, DecidableEq

/-- Forget the `marked` flag of a node. -/
def Node.core (nd : Node) : NodeCore :=
  ⟨nd.value, nd.operator, nd.search_field, nd.children⟩

/-- The `marked`-independent view of a heap cell. -/
def coreAt (h : List Node) (j : Nat) : Option NodeCore :=
  (h.get? j).map Node.core

/-- The `marked` flag of a heap cell (`false` for an out-of-range id). -/
def markedAt (h : List Node) (j : Nat) : Bool :=
  match h.get? j with
  | some nd => nd.marked
  | none => false

/-- Set the `marked` flag of one heap cell (no-op on an out-of-range id,
which never occurs in the embedded code). -/
def setMark (b : Bool) (h : List Node) (i : Nat) : List Node :=
  match h.get? i with
  | some nd => h.set i { nd with marked := b }
  | none => h

/-- Set the `marked` flag of every listed heap cell, left to right. -/
def paint (b : Bool) : List Nat → List Node → List Node
  | [], h => h
  | i :: l, h => paint b l (setMark b h i)

/-- Plain pre-order depth-first traversal of the heap, ignoring marks: the
list of node ids visited from a work stack.  This is the specification
device used to say "the tree below this root is this finite id list"; the
fuel argument only cuts off circular heaps (one unit is spent per visited
node, so fuel = length of the result is always enough). -/
def dfs (h : List Node) : Nat → List Nat → Option (List Nat)
  | _, [] => some []
  | 0, _ :: _ => none
  | fuel+1, i :: rest =>
    match h.get? i with
    | none => none
    | some nd => (dfs h fuel (nd.children ++ rest)).map (i :: ·)

/-- `Query._validate_tree_structure` (query.py lines 40–48), with the
recursion over children turned into an explicit work stack: visit the head
id; raise (`none`) if it is already marked, otherwise mark it and push its
children in front of the remaining work.  Fuel: one unit per processed
node, so `heap length + 1` is enough for every duplicate-free tree. -/
def validate : List Node → Nat → List Nat → Option (List Node)
  | h, _, [] => some h
  | _, 0, _ :: _ => none
  | h, fuel+1, i :: rest =>
    match h.get? i with
    | none => none
    | some nd =>
      if nd.marked then none
      else validate (h.set i { nd with marked := true }) fuel (nd.children ++ rest)

/-- Modelled from the spec: `Tree.remove_all_marks` of `tree.py` (not among
the sources).  Spec §2 ("a bulk clear-marks operation"), §3 ("must be reset
to false on all nodes") and §4.1 ("every mark — on this tree and recursively
on every nested query's tree — is cleared"): a tree traversal from the root
that resets `marked` on every visited node, written with the same explicit
work stack as `validate`. -/
def clearMarks : List Node → Nat → List Nat → List Node
  | h, _, [] => h
  | h, 0, _ :: _ => h
  | h, fuel+1, i :: rest =>
    match h.get? i with
    | none => clearMarks h fuel rest
    | some nd => clearMarks (h.set i { nd with marked := false }) fuel (nd.children ++ rest)

/-- A Python `Query` object: it owns a `Tree`, which is just a root node;
the heap is passed alongside. -/
structure Query where
  root : Nat
deriving Repr, DecidableEq

/-- The heap cells allocated by `Query._build_query_tree` together with
`_create_term_nodes` (query.py lines 50–68): the operator root node —
whose ordered children are the fresh term-node ids (one per entry of
`search_terms`, allocated right after the root) followed by the root id of
every nested query (appended by reference, no copy) — and then the term
nodes themselves, each tagged with the search field, in source order. -/
def newNodes (op : String) (ts : List String) (qs : List Query) (f : String)
    (h : List Node) : List Node :=
  ⟨op, true, f, (List.range ts.length).map (fun k => h.length + 1 + k) ++ qs.map Query.root,
      false⟩ ::
    ts.map (fun t => ⟨t, false, f, [], false⟩)

/-- The pre-order id list of the tree built by one `Query.__init__` call:
the fresh root, the fresh term nodes, then the nested trees in order. -/
def newSpan (ts : List String) (Ss : List (List Nat)) (h : List Node) : List Nat :=
  h.length :: ((List.range ts.length).map (fun k => h.length + 1 + k) ++ Ss.join)

/-- `Query.__init__` (query.py lines 20–38): check the operator name
(the `assert`; modelled as failure), build the tree (`newNodes`), run the
structural validator from the new root, and on success clear all marks on
this tree and then on every nested query's tree, in order.  Returns `none`
where the Python constructor raises. -/
def mkQuery (op : String) (search_terms : List String) (nested_queries : List Query)
    (search_field : String) (h : List Node) : Option (Query × List Node) :=
  if op ∈ (["AND", "OR", "NOT"] : List String) then
    let rootId := h.length
    let h1 := h ++ newNodes op search_terms nested_queries search_field h
    match validate h1 (h1.length + 1) [rootId] with
    | none => none
    | some h2 =>
      let h3 := clearMarks h2 (h2.length + 1) [rootId]
      let h4 := nested_queries.foldl (fun hh q => clearMarks hh (hh.length + 1) [q.root]) h3
      some (⟨rootId⟩, h4)
  else none

/-! ## Field tables and serializers (`query.py`) -/

/-- `Query.get_search_field_wos` (query.py lines 236–252).  The Python
function leaves `result` unassigned on an unknown field name, so that the
final `return result` raises `UnboundLocalError`; this is modelled as
`none`. -/
def get_search_field_wos (search_field : String) : Option String :=
  if search_field = "Author Keywords" then some "AK"
  else if search_field = "Abstract" then some "AB"
  else if search_field = "Author" then some "AU"
  else if search_field = "DOI" then some "DO"
  else if search_field = "ISBN/ISSN" then some "IS"
  else if search_field = "Publisher" then some "PUBL"
  else if search_field = "Title" then some "TI"
  else none

/-- `Query.get_search_field_pubmed` (query.py lines 317–333); unknown field
names raise, modelled as `none`. -/
def get_search_field_pubmed (search_field : String) : Option String :=
  if search_field = "Author Keywords" then some "ot"
  else if search_field = "Abstract" then some "tiab"
  else if search_field = "Author" then some "au"
  else if search_field = "DOI" then some "aid"
  else if search_field = "ISBN/ISSN" then some "isbn"
  else if search_field = "Publisher" then some "pubn"
  else if search_field = "Title" then some "ti"
  else none

/-- Call shapes of the serializer recursions: printing a node (the body of
`_print_query_wos` / `_print_query_pubmed` for one `node` argument), or the
`for child in node.children` loop of such a body, carrying the parent's
operator text and whether the next child is still `node.children[0]`.
Python compares children with `==`, which on `Node` objects is identity; in
a validated tree the children of a node are pairwise distinct objects, so
`child == node.children[0]` / `child == node.children[-1]` are exactly the
positional first/last tests used here. -/
inductive SerCall where
  | node (i : Nat)
  | kids (pv : String) (first : Bool) (cs : List Nat)
deriving Repr, DecidableEq

/-- `Query._print_query_wos` (query.py lines 137–176).  One fuel unit per
call; a dangling id or an unmapped search field of a term child in the
`first and not last` branch yields `none` (the Python `UnboundLocalError`).
Note the field lookup happens only in that branch. -/
def wosAux (h : List Node) : Nat → SerCall → Option String
  | 0, _ => none
  | fuel+1, SerCall.node i =>
    match h.get? i with
    | none => none
    | some nd => wosAux h fuel (SerCall.kids nd.value true nd.children)
  | _+1, SerCall.kids _ _ [] => some ""
  | fuel+1, SerCall.kids pv first (c :: rest) =>
    match h.get? c with
    | none => none
    | some cnd =>
      let isLast := rest.isEmpty
      if cnd.operator then
        match wosAux h fuel (SerCall.node c) with
        | none => none
        | some sub =>
          let piece :=
            if cnd.value = "NOT" then sub
            else if first && !isLast then "(" ++ sub
            else " " ++ pv ++ " " ++ sub
          let piece := if isLast && !(cnd.value == "NOT") then piece ++ ")" else piece
          match wosAux h fuel (SerCall.kids pv false rest) with
          | none => none
          | some tailStr => some (piece ++ tailStr)
      else
        let pieceO : Option String :=
          if first && !isLast then
            match get_search_field_wos cnd.search_field with
            | none => none
            | some fc => some (fc ++ "=(" ++ cnd.value)
          else some (" " ++ pv ++ " " ++ cnd.value)
        match pieceO with
        | none => none
        | some p =>
          let p := if isLast then p ++ ")" else p
          match wosAux h fuel (SerCall.kids pv false rest) with
          | none => none
          | some tailStr => some (p ++ tailStr)

/-- Fuel bound used for the serializer entry points: the recursion depth is
at most one `node` step plus one `kids` step per node of a (duplicate-free)
tree, so twice the heap size plus two always suffices. -/
def serFuel (h : List Node) : Nat :=
  2 * h.length + 2

/-- Entry point of `Query._print_query_wos` on the root of a query tree. -/
def print_query_wos (h : List Node) (root : Nat) : Option String :=
  wosAux h (serFuel h) (SerCall.node root)

/-- `Query._print_query_pubmed` (query.py lines 273–315).  Unlike WoS, the
field of a term child is looked up (and appended as `[code]`) in both the
`first and not last` branch and the other branch. -/
def pubmedAux (h : List Node) : Nat → SerCall → Option String
  | 0, _ => none
  | fuel+1, SerCall.node i =>
    match h.get? i with
    | none => none
    | some nd => pubmedAux h fuel (SerCall.kids nd.value true nd.children)
  | _+1, SerCall.kids _ _ [] => some ""
  | fuel+1, SerCall.kids pv first (c :: rest) =>
    match h.get? c with
    | none => none
    | some cnd =>
      let isLast := rest.isEmpty
      if cnd.operator then
        match pubmedAux h fuel (SerCall.node c) with
        | none => none
        | some sub =>
          let piece :=
            if cnd.value = "NOT" then sub
            else if first && !isLast then "(" ++ sub
            else " " ++ pv ++ " " ++ sub
          let piece := if isLast && !(cnd.value == "NOT") then piece ++ ")" else piece
          match pubmedAux h fuel (SerCall.kids pv false rest) with
          | none => none
          | some tailStr => some (piece ++ tailStr)
      else
        match get_search_field_pubmed cnd.search_field with
        | none => none
        | some fc =>
          let p :=
            if first && !isLast then "(" ++ cnd.value ++ "[" ++ fc ++ "]"
            else " " ++ pv ++ " " ++ cnd.value ++ "[" ++ fc ++ "]"
          let p := if isLast then p ++ ")" else p
          match pubmedAux h fuel (SerCall.kids pv false rest) with
          | none => none
          | some tailStr => some (p ++ tailStr)

/-- Entry point of `Query._print_query_pubmed` on the root of a query tree. -/
def print_query_pubmed (h : List Node) (root : Nat) : Option String :=
  pubmedAux h (serFuel h) (SerCall.node root)

/-! ## String linters (`parser_validation.py`)

Query strings are embedded as `List Char`.  `re.finditer` over the two
patterns of this file is embedded as an explicit left-to-right scanner:
at each position, if the position is not preceded by a word character
(the leading `\b`; every alternative of both patterns starts with a word
character, so the boundary holds exactly when the previous character is not
a word character), try the pattern; on a match, emit its span and resume
after it — matches are non-overlapping, as with `finditer`. -/

/-- A linter message: level, text and optional character span, as appended
to `linter_messages`. -/
structure Msg where
  level : String
  msg : String
  pos : Option (Nat × Nat)
deriving Repr, DecidableEq

/-- The mutable state of a validator object: `self.query_str` and
`self.search_field_general`. -/
structure VState where
  query_str : List Char
  search_field_general : List Char
deriving Repr, DecidableEq

/-- ASCII single quote, used in the message f-strings. -/
def squo : Char := Char.ofNat 39

/-- The three alternatives of `FAULTY_OPERATOR_REGEX`
(`\b(?:[aA][nN][dD]|[oO][rR]|[nN][oO][tT])\b`), lower-cased. -/
def kwAnd : List Char := ['a', 'n', 'd']

/-- Lower-cased `or` alternative of `FAULTY_OPERATOR_REGEX`. -/
def kwOr : List Char := ['o', 'r']

/-- Lower-cased `not` alternative of `FAULTY_OPERATOR_REGEX`. -/
def kwNot : List Char := ['n', 'o', 't']

/-- Trailing `\b` of a match all of whose characters are word characters:
the remainder is empty or starts with a non-word character. -/
def boundaryOk : List Char → Bool
  | [] => true
  | c :: _ => !isWordChar c

/-- Try to match one case-insensitive keyword alternative at the current
position: the next `kw.length` characters lower-case to `kw` and are
followed by a word boundary.  Returns the matched characters (in their
original case) and the remainder. -/
def tryKw (kw s : List Char) : Option (List Char × List Char) :=
  if (s.take kw.length).map low = kw ∧ boundaryOk (s.drop kw.length) = true then
    some (s.take kw.length, s.drop kw.length)
  else none

/-- Try the three alternatives of `FAULTY_OPERATOR_REGEX` in the pattern's
order (their first letters differ, so at most one can match). -/
def tryKws (s : List Char) : Option (List Char × List Char) :=
  match tryKw kwAnd s with
  | some r => some r
  | none =>
    match tryKw kwOr s with
    | some r => some r
    | none => tryKw kwNot s

/-- `re.finditer(FAULTY_OPERATOR_REGEX, …)`: scan left to right; `prevW`
says whether the character before position `i` is a word character (all
keywords end in a letter, so after a match the scanner resumes with
`prevW = true`).  Produces the list of matches as
`(start, end, matched characters)` with end-exclusive spans, in order.
One fuel unit is spent per character position, so fuel = string length is
always enough. -/
def scanOps (fuel : Nat) (prevW : Bool) (i : Nat) (s : List Char) :
    List (Nat × Nat × List Char) :=
  match fuel, s with
  | 0, _ => []
  | _, [] => []
  | fuel+1, c :: rest =>
    match (if prevW then none else tryKws (c :: rest)) with
    | some (m, r2) => (i, i + m.length, m) :: scanOps fuel true (i + m.length) r2
    | none => scanOps fuel (isWordChar c) (i + 1) rest

/-- All matches of `FAULTY_OPERATOR_REGEX` on a query string. -/
def scan_ops (s : List Char) : List (Nat × Nat × List Char) :=
  scanOps s.length false 0 s

/-- Replace the slice starting at `a` of length `repl.length` of `s` by
`repl` (the shape `s[:start] + repl + s[end:]` with `end = start +
repl.length`, as in `check_operator`). -/
def replaceSpan (s : List Char) (a : Nat) (repl : List Char) : List Char :=
  s.take a ++ repl ++ s.drop (a + repl.length)

/-- The Warning appended by `check_operator` for one rewritten operator:
f-string `Operator '{operator}' automatically capitalized` with
span `(start, end)`. -/
def mkOpMsg (m : List Char) (a e : Nat) : Msg :=
  ⟨"Warning", "Operator " ++ String.mk (squo :: (m ++ [squo])) ++ " automatically capitalized",
    some (a, e)⟩

/-- The replacement loop of `check_operator`: for each match of the
original string, in order, skip it if it is already fully upper-case
(`operator != operator.upper()` fails), otherwise overwrite its span in the
current string with the upper-cased text (same length, so the original
spans stay aligned) and append the Warning. -/
def applyOps : List (Nat × Nat × List Char) → List Char → List Char × List Msg
  | [], s => (s, [])
  | (a, e, m) :: tl, s =>
    if m = m.map up then applyOps tl s
    else
      let s2 := replaceSpan s a (m.map up)
      let r := applyOps tl s2
      (r.1, mkOpMsg m a e :: r.2)

/-- `QueryStringValidator.check_operator` (parser_validation.py lines
24–44): matches are taken on the string as it is at the call
(`re.finditer` iterates the string object captured at the call), the
message list is cleared at entry, and `search_field_general` is untouched. -/
def check_operator (st : VState) : VState × List Msg :=
  let r := applyOps (scan_ops st.query_str) st.query_str
  ({ st with query_str := r.1 }, r.2)

/-- ASCII upper-case letter test (`[A-Z]` of
`UNSUPPORTED_SEARCH_FIELD_REGEX`). -/
def isUpperL (c : Char) : Bool :=
  65 ≤ c.toNat && c.toNat ≤ 90

/-- ASCII digit test (`\d`). -/
def isDigitC (c : Char) : Bool :=
  48 ≤ c.toNat && c.toNat ≤ 57

/-- After the first digit of `S\d+\b`: consume further digits, then require
a word boundary. -/
def restDigitsBound : List Char → Bool
  | [] => true
  | c :: rest => if isDigitC c then restDigitsBound rest else !isWordChar c

/-- Does `S\d+\b` match at the current position (the second negative
lookahead of `UNSUPPORTED_SEARCH_FIELD_REGEX`)? -/
def sdMatch : List Char → Bool
  | c :: d :: rest => c == 'S' && isDigitC d && restDigitsBound rest
  | _ => false

/-- Does `OR\b` match at the current position (the first negative
lookahead)? -/
def orMatch : List Char → Bool
  | c :: d :: rest => c == 'O' && d == 'R' && boundaryOk rest
  | _ => false

/-- Try to match `(?!OR\b)(?!S\d+\b)[A-Z]{2}\b` at the current position:
two upper-case letters followed by a word boundary, with the two negative
lookaheads.  Returns the two matched characters and the remainder. -/
def tryField : List Char → Option (List Char × List Char)
  | a :: b :: rest =>
    if isUpperL a && isUpperL b && boundaryOk rest &&
        !orMatch (a :: b :: rest) && !sdMatch (a :: b :: rest) then
      some ([a, b], rest)
    else none
  | _ => none

/-- `re.finditer(UNSUPPORTED_SEARCH_FIELD_REGEX, …)`: same scanning scheme
as `scanOps` (both matched characters are letters, so after a match the
scanner resumes with `prevW = true`). -/
def scanFields (fuel : Nat) (prevW : Bool) (i : Nat) (s : List Char) :
    List (Nat × Nat × List Char) :=
  match fuel, s with
  | 0, _ => []
  | _, [] => []
  | fuel+1, c :: rest =>
    match (if prevW then none else tryField (c :: rest)) with
    | some (m, r2) => (i, i + m.length, m) :: scanFields fuel true (i + m.length) r2
    | none => scanFields fuel (isWordChar c) (i + 1) rest

/-- All matches of `UNSUPPORTED_SEARCH_FIELD_REGEX` on a query string. -/
def scan_fields (s : List Char) : List (Nat × Nat × List Char) :=
  scanFields s.length false 0 s

/-- The supported EBSCO field codes (`supported_fields` of
`filter_search_field`), as two-character lists. -/
def supported_fields : List (List Char) :=
  [['T', 'I'], ['A', 'U'], ['T', 'X'], ['A', 'B'], ['S', 'O'], ['S', 'U'],
    ['I', 'S'], ['I', 'B'], ['D', 'E'], ['L', 'A'], ['K', 'W']]

/-- The Error appended by `filter_search_field` for one replaced field:
f-string `search-field-unsupported: '{field}' automatically changed to
Abstract AB.` with span `(start, end)`. -/
def mkFieldMsg (m : List Char) (a e : Nat) : Msg :=
  ⟨"Error", "search-field-unsupported: " ++ String.mk (squo :: (m ++ [squo])) ++
    " automatically changed to Abstract AB.", some (a, e)⟩

/-- The non-strict replacement loop of `filter_search_field`: for each
match of the original string, in order, skip supported codes; every other
code is overwritten with `AB` at its span in the working copy
(`modified_query_list`, seeded from the original string; spans stay aligned
because the replacement also has length two) and an Error is appended.
`field.strip()` on two letters is the identity and is omitted. -/
def applyFields : List (Nat × Nat × List Char) → List Char → List Char × List Msg
  | [], s => (s, [])
  | (a, e, m) :: tl, s =>
    if m ∈ supported_fields then applyFields tl s
    else
      let s2 := replaceSpan s a ['A', 'B']
      let r := applyFields tl s2
      (r.1, mkFieldMsg m a e :: r.2)

/-- `EBSCOQueryStringValidator.filter_search_field` (parser_validation.py
lines 108–171) in non-strict mode (`strict=False`); the strict branch
blocks on interactive `input()` (external I/O, spec §4.3) and is outside
the model.  The message list is cleared at entry. -/
def filter_search_field (st : VState) : VState × List Msg :=
  let r := applyFields (scan_fields st.query_str) st.query_str
  ({ st with query_str := r.1 }, r.2)

/-- The transition table `valid_transitions` of `validate_token_position`
(parser_validation.py lines 189–222); `dict.get(…, [])` yields `[]` for an
unknown previous token type. -/
def valid_transitions (prev : String) : List String :=
  if prev = "FIELD" then ["SEARCH_TERM", "PARENTHESIS_OPEN"]
  else if prev = "SEARCH_TERM" then
    ["SEARCH_TERM", "LOGIC_OPERATOR", "PROXIMITY_OPERATOR", "PARENTHESIS_CLOSED"]
  else if prev = "LOGIC_OPERATOR" then ["SEARCH_TERM", "FIELD", "PARENTHESIS_OPEN"]
  else if prev = "PROXIMITY_OPERATOR" then ["SEARCH_TERM", "PARENTHESIS_OPEN", "FIELD"]
  else if prev = "PARENTHESIS_OPEN" then ["FIELD", "SEARCH_TERM", "PARENTHESIS_OPEN"]
  else if prev = "PARENTHESIS_CLOSED" then
    ["PARENTHESIS_CLOSED", "LOGIC_OPERATOR", "PROXIMITY_OPERATOR"]
  else []

/-- The Error appended by `validate_token_position` for an invalid pair:
f-string `Invalid token sequence: '{previous_token_type}' followed by
'{token_type}'` with the given position. -/
def mkSeqMsg (token_type previous_token_type : String) (position : Option (Nat × Nat)) : Msg :=
  ⟨"Error", "Invalid token sequence: " ++ String.mk (squo :: (previous_token_type.data ++ [squo])) ++
    " followed by " ++ String.mk (squo :: (token_type.data ++ [squo])), position⟩

/-- `EBSCOQueryStringValidator.validate_token_position` (parser_validation.py
lines 173–234): the message list is cleared at entry; with no previous
token type the function returns without a message; otherwise one Error is
appended exactly when the current type is not in the previous type's
allowed-successor list. -/
def validate_token_position (token_type : String) (previous_token_type : Option String)
    (position : Option (Nat × Nat)) : List Msg :=
  match previous_token_type with
  | none => []
  | some prev =>
    if token_type ∈ valid_transitions prev then []
    else [mkSeqMsg token_type prev position]

/-! ## Tree-shape predicates used in the serializer claims -/

/-- Does the heap cell hold an operator node?  (`node.operator` is true.) -/
def isOpAtB (h : List Node) (r : Nat) : Bool :=
  match h.get? r with
  | some nd => nd.operator
  | none => false

/-- Every term node among the listed ids is a leaf (term nodes are built by
`_create_term_nodes` with no children). -/
def termLeavesB (h : List Node) (S : List Nat) : Bool :=
  S.all (fun j =>
    match h.get? j with
    | some nd => nd.operator || nd.children.isEmpty
    | none => true)

/-- Some listed id is a term node whose search field is not in the PubMed
field table. -/
def hasBadPubB (h : List Node) (S : List Nat) : Bool :=
  S.any (fun j =>
    match h.get? j with
    | some nd => !nd.operator && (get_search_field_pubmed nd.search_field).isNone
    | none => false)

/-- Is this child a term node whose search field is not in the WoS field
table? -/
def badWosTermB (h : List Node) (c : Nat) : Bool :=
  match h.get? c with
  | some cnd => !cnd.operator && (get_search_field_wos cnd.search_field).isNone
  | none => false

/-- Does this child list start with a WoS-bad term that is first but not
last — the only position in which `_print_query_wos` looks a term's search
field up? -/
def headBadWosB (h : List Node) (cs : List Nat) : Bool :=
  match cs with
  | c :: rest => !rest.isEmpty && badWosTermB h c
  | [] => false

/-- Some listed id is an operator node whose first child is a first-but-
not-last term with a search field missing from the WoS table. -/
def hasBadWosB (h : List Node) (S : List Nat) : Bool :=
  S.any (fun p =>
    match h.get? p with
    | some nd => nd.operator && headBadWosB h nd.children
    | none => false)

/-- The six token categories of the Token Sequence Validator (spec §4.4). -/
def tokenCategories : List String :=
  ["FIELD", "SEARCH_TERM", "LOGIC_OPERATOR", "PROXIMITY_OPERATOR",
    "PARENTHESIS_OPEN", "PARENTHESIS_CLOSED"]

/-- The transition table exactly as the spec states it (§6, "previous →
allowed next"), written independently of `valid_transitions` so the code
table can be checked against it. -/
def claimAllowed (prev : String) : List String :=
  if prev = "FIELD" then ["SEARCH_TERM", "PARENTHESIS_OPEN"]
  else if prev = "SEARCH_TERM" then
    ["SEARCH_TERM", "LOGIC_OPERATOR", "PROXIMITY_OPERATOR", "PARENTHESIS_CLOSED"]
  else if prev = "LOGIC_OPERATOR" then ["SEARCH_TERM", "FIELD", "PARENTHESIS_OPEN"]
  else if prev = "PROXIMITY_OPERATOR" then ["SEARCH_TERM", "PARENTHESIS_OPEN", "FIELD"]
  else if prev = "PARENTHESIS_OPEN" then ["FIELD", "SEARCH_TERM", "PARENTHESIS_OPEN"]
  else if prev = "PARENTHESIS_CLOSED" then
    ["PARENTHESIS_CLOSED", "LOGIC_OPERATOR", "PROXIMITY_OPERATOR"]
  else []

/-! ## Specification devices for the linter claims -/

/-- Well-formed match list of a scanner on string `s` starting at position
`i`: spans are in order and non-overlapping, end-exclusive, non-empty,
within bounds, and each matched text is the slice of `s` at its span. -/
def MatchesOk (s : List Char) : Nat → List (Nat × Nat × List Char) → Prop
  | _, [] => True
  | i, (a, e, m) :: tl =>
    i ≤ a ∧ e = a + m.length ∧ 0 < m.length ∧ e ≤ s.length ∧
      (∀ k, k < m.length → s.get? (a + k) = m.get? k) ∧ MatchesOk s e tl

/-- The character the `check_operator` replacement loop writes at position
`j`, if any: the upper-cased character of the covering replaced match. -/
def coverOps : List (Nat × Nat × List Char) → Nat → Option Char
  | [], _ => none
  | (a, e, m) :: tl, j =>
    if m = m.map up then coverOps tl j
    else if a ≤ j ∧ j < e then (m.map up).get? (j - a) else coverOps tl j

/-- The character the `filter_search_field` replacement loop writes at
position `j`, if any (`A` or `B` from the covering unsupported match). -/
def coverFields : List (Nat × Nat × List Char) → Nat → Option Char
  | [], _ => none
  | (a, e, m) :: tl, j =>
    if m ∈ supported_fields then coverFields tl j
    else if a ≤ j ∧ j < e then (['A', 'B'] : List Char).get? (j - a) else coverFields tl j

/-- Two strings of equal length whose characters agree up to ASCII case. -/
def caseEqL (s t : List Char) : Prop :=
  List.Forall₂ (fun a b => low a = low b) s t

/-- The two-character token of `s` at position `a` (empty if out of
range). -/
def tokAt (s : List Char) (a : Nat) : List Char :=
  match s.get? a, s.get? (a + 1) with
  | some c1, some c2 => [c1, c2]
  | _, _ => []

/-- Is the character before position `a` of `s` a word character (the
leading `\b` fails exactly when it is)? -/
def prevw (s : List Char) (a : Nat) : Bool :=
  isWordCharO (if a = 0 then none else s.get? (a - 1))

/-- The character-level part of the positional regex reading: positions `a`
and `a + 1` hold upper-case letters, position `a + 2` is no word character
(the trailing `\b`), and the two negative lookaheads hold (for `OR\b` the
trailing boundary is already required, and `S\d+\b` can only bite through
its first digit, since the second matched letter is no digit). -/
def fieldTokM (s : List Char) (a : Nat) : Bool :=
  match s.get? a, s.get? (a + 1) with
  | some c1, some c2 =>
    isUpperL c1 && isUpperL c2 && !(isWordCharO (s.get? (a + 2))) &&
      !(c1 == 'O' && c2 == 'R') && !(c1 == 'S' && isDigitC c2)
  | _, _ => false

/-- Claim-side positional reading of `UNSUPPORTED_SEARCH_FIELD_REGEX`:
position `a` of `s` starts a word-bounded two-letter upper-case token that
is not the literal `OR` and not of the form `S<digits>`. -/
def fieldTokenAt2 (s : List Char) (a : Nat) : Bool :=
  !prevw s a && fieldTokM s a

/-- Claim-side predicate of C8: a word-bounded two-letter upper-case token
at `a` that is not `OR`, not `S<digits>`, and not in the supported set. -/
def unsupportedFieldTokenAt (s : List Char) (a : Nat) : Bool :=
  fieldTokenAt2 s a && !(decide (tokAt s a ∈ supported_fields))

/-- All positions of the query string holding an unsupported field token,
in order. -/
def unsupportedPositions (s : List Char) : List Nat :=
  (List.range s.length).filter (fun a => unsupportedFieldTokenAt s a)

/-! ## Heap infrastructure lemmas -/

theorem coreAt_eq_none {h : List Node} {j : Nat} :
    coreAt h j = none ↔ h.get? j = none := by
  unfold coreAt
  cases h.get? j <;> simp

theorem coreAt_eq_some {h : List Node} {j : Nat} {c : NodeCore} :
    coreAt h j = some c ↔ ∃ nd, h.get? j = some nd ∧ nd.core = c := by
  unfold coreAt
  cases h.get? j <;> simp

theorem length_setMark (b : Bool) (h : List Node) (i : Nat) :
    (setMark b h i).length = h.length := by
  unfold setMark
  cases h.get? i <;> simp

theorem length_paint (b : Bool) (l : List Nat) (h : List Node) :
    (paint b l h).length = h.length := by
  induction l generalizing h with
  | nil => rfl
  | cons i l ih => simp [paint, ih, length_setMark]

theorem coreAt_setMark (b : Bool) (h : List Node) (i j : Nat) :
    coreAt (setMark b h i) j = coreAt h j := by
  unfold setMark coreAt
  cases hg : h.get? i with
  | none => rfl
  | some nd =>
    by_cases hij : i = j
    · subst hij
      have hi : i < h.length := by
        by_contra hlt
        rw [List.get?_len_le (Nat.le_of_not_lt hlt)] at hg
        exact Option.noConfusion hg
      rw [List.get?_set_eq_of_lt _ hi, hg]
      rfl
    · rw [List.get?_set_ne _ _ hij]

theorem coreAt_paint (b : Bool) (l : List Nat) (h : List Node) (j : Nat) :
    coreAt (paint b l h) j = coreAt h j := by
  induction l generalizing h with
  | nil => rfl
  | cons i l ih => rw [paint, ih, coreAt_setMark]

theorem markedAt_setMark (b : Bool) (h : List Node) (i j : Nat) :
    markedAt (setMark b h i) j =
      if i = j ∧ i < h.length then b else markedAt h j := by
  unfold setMark markedAt
  cases hg : h.get? i with
  | none =>
    have hi : h.length ≤ i := List.get?_eq_none.mp hg
    rw [if_neg (fun hc => absurd hc.2 (Nat.not_lt_of_le hi))]
  | some nd =>
    have hi : i < h.length := by
      by_contra hlt
      rw [List.get?_len_le (Nat.le_of_not_lt hlt)] at hg
      exact Option.noConfusion hg
    by_cases hij : i = j
    · subst hij
      rw [List.get?_set_eq_of_lt _ hi, if_pos ⟨rfl, hi⟩]
    · rw [List.get?_set_ne _ _ hij, if_neg (fun hc => hij hc.1)]

theorem markedAt_paint (b : Bool) (l : List Nat) (h : List Node) (j : Nat) :
    markedAt (paint b l h) j =
      if j ∈ l ∧ j < h.length then b else markedAt h j := by
  induction l generalizing h with
  | nil => simp [paint]
  | cons i l ih =>
    rw [paint, ih, length_setMark, markedAt_setMark]
    by_cases hr : j < h.length
    · by_cases hjl : j ∈ l
      · rw [if_pos ⟨hjl, hr⟩, if_pos ⟨List.mem_cons_of_mem i hjl, hr⟩]
      · rw [if_neg (fun hc => hjl hc.1)]
        by_cases hij : i = j
        · subst hij
          rw [if_pos ⟨rfl, hr⟩, if_pos ⟨List.mem_cons_self i l, hr⟩]
        · rw [if_neg (fun hc => hij hc.1),
            if_neg (fun hc => (List.mem_cons.mp hc.1).elim (fun he => hij he.symm) hjl)]
    · rw [if_neg (fun hc => hr hc.2),
        if_neg (fun hc => hr (by obtain ⟨he, hl2⟩ := hc; omega)),
        if_neg (fun hc => hr hc.2)]

theorem get?_eq_of_core_marked {h1 h2 : List Node} {j : Nat}
    (hc : coreAt h1 j = coreAt h2 j) (hm : markedAt h1 j = markedAt h2 j) :
    h1.get? j = h2.get? j := by
  unfold coreAt markedAt at *
  cases hg1 : h1.get? j with
  | none =>
    rw [hg1] at hc hm
    cases hg2 : h2.get? j with
    | none => rfl
    | some nd2 =>
      rw [hg2] at hc
      exact absurd hc (by simp)
  | some nd1 =>
    rw [hg1] at hc hm
    cases hg2 : h2.get? j with
    | none =>
      rw [hg2] at hc
      exact absurd hc (by simp)
    | some nd2 =>
      rw [hg2] at hc hm
      simp only [Option.map_some'] at hc
      have hcc : nd1.core = nd2.core := by exact Option.some.inj hc
      unfold Node.core at hcc
      cases nd1
      cases nd2
      simp_all

theorem heap_ext {h1 h2 : List Node}
    (hc : ∀ j, coreAt h1 j = coreAt h2 j) (hm : ∀ j, markedAt h1 j = markedAt h2 j) :
    h1 = h2 :=
  List.ext_get? fun j => get?_eq_of_core_marked (hc j) (hm j)

theorem markedAt_append_left {h ext : List Node} {j : Nat} (hj : j < h.length) :
    markedAt (h ++ ext) j = markedAt h j := by
  unfold markedAt
  rw [List.get?_append hj]

theorem coreAt_append_left {h ext : List Node} {j : Nat} (hj : j < h.length) :
    coreAt (h ++ ext) j = coreAt h j := by
  unfold coreAt
  rw [List.get?_append hj]

/-! ## Lemmas about `dfs` -/

theorem dfs_nil (h : List Node) (fuel : Nat) : dfs h fuel [] = some [] := by
  cases fuel <;> rfl

theorem dfs_cons {h : List Node} {fuel i : Nat} {rest l : List Nat}
    (hd : dfs h (fuel + 1) (i :: rest) = some l) :
    ∃ nd l2, h.get? i = some nd ∧ dfs h fuel (nd.children ++ rest) = some l2 ∧
      l = i :: l2 := by
  cases hg : h.get? i with
  | none =>
    simp only [dfs, hg] at hd
    exact Option.noConfusion hd
  | some nd =>
    simp only [dfs, hg, Option.map_eq_some'] at hd
    obtain ⟨l2, hd2, hl⟩ := hd
    exact ⟨nd, l2, rfl, hd2, hl.symm⟩

theorem dfs_mem_lt {h : List Node} :
    ∀ {fuel : Nat} {st l : List Nat}, dfs h fuel st = some l → ∀ j ∈ l, j < h.length := by
  intro fuel
  induction fuel with
  | zero =>
    intro st l hd
    cases st with
    | nil =>
      simp only [dfs] at hd
      cases hd
      intro j hj
      exact absurd hj (List.not_mem_nil j)
    | cons i rest => exact Option.noConfusion hd
  | succ fuel ih =>
    intro st l hd
    cases st with
    | nil =>
      simp only [dfs] at hd
      cases hd
      intro j hj
      exact absurd hj (List.not_mem_nil j)
    | cons i rest =>
      obtain ⟨nd, l2, hg, hd2, hl⟩ := dfs_cons hd
      subst hl
      intro j hj
      rcases List.mem_cons.mp hj with hji | hjl
      · subst hji
        by_contra hlt
        rw [List.get?_len_le (Nat.le_of_not_lt hlt)] at hg
        exact Option.noConfusion hg
      · exact ih hd2 j hjl

theorem dfs_fuel {h : List Node} :
    ∀ {fuel : Nat} {st l : List Nat}, dfs h fuel st = some l →
      ∀ {fuel2 : Nat}, l.length ≤ fuel2 → dfs h fuel2 st = some l := by
  intro fuel
  induction fuel with
  | zero =>
    intro st l hd fuel2 _
    cases st with
    | nil => simp only [dfs] at hd; cases hd; exact dfs_nil h fuel2
    | cons i rest => exact Option.noConfusion hd
  | succ fuel ih =>
    intro st l hd fuel2 hf
    cases st with
    | nil => simp only [dfs] at hd; cases hd; exact dfs_nil h fuel2
    | cons i rest =>
      obtain ⟨nd, l2, hg, hd2, hl⟩ := dfs_cons hd
      subst hl
      cases fuel2 with
      | zero => exact absurd hf (by simp)
      | succ fuel2 =>
        have hf2 : l2.length ≤ fuel2 := by
          simpa [Nat.succ_le_succ_iff] using hf
        simp only [dfs, hg, ih hd2 hf2, Option.map_some']

theorem dfs_length_le {h : List Node} :
    ∀ {fuel : Nat} {st l : List Nat}, dfs h fuel st = some l → l.length ≤ fuel := by
  intro fuel
  induction fuel with
  | zero =>
    intro st l hd
    cases st with
    | nil => simp only [dfs] at hd; cases hd; simp
    | cons i rest => exact Option.noConfusion hd
  | succ fuel ih =>
    intro st l hd
    cases st with
    | nil => simp only [dfs] at hd; cases hd; simp
    | cons i rest =>
      obtain ⟨nd, l2, _, hd2, hl⟩ := dfs_cons hd
      subst hl
      simpa [Nat.succ_le_succ_iff] using ih hd2

theorem dfs_append {h : List Node} :
    ∀ {fa : Nat} {a la : List Nat}, dfs h fa a = some la →
      ∀ {fb : Nat} {b lb : List Nat}, dfs h fb b = some lb →
      ∀ {g : Nat}, (la ++ lb).length ≤ g → dfs h g (a ++ b) = some (la ++ lb) := by
  intro fa
  induction fa with
  | zero =>
    intro a la ha fb b lb hb g hg
    cases a with
    | nil =>
      simp only [dfs] at ha
      cases ha
      simpa using dfs_fuel hb (by simpa using hg)
    | cons i rest => exact Option.noConfusion ha
  | succ fa ih =>
    intro a la ha fb b lb hb g hg
    cases a with
    | nil =>
      simp only [dfs] at ha
      cases ha
      simpa using dfs_fuel hb (by simpa using hg)
    | cons i rest =>
      obtain ⟨nd, la2, hgi, hd2, hl⟩ := dfs_cons ha
      subst hl
      cases g with
      | zero => simp at hg
      | succ g =>
        have hgoal : dfs h g ((nd.children ++ rest) ++ b) = some (la2 ++ lb) :=
          ih hd2 hb (by simp at hg ⊢; omega)
        rw [List.append_assoc] at hgoal
        show dfs h (g + 1) (i :: (rest ++ b)) = some (i :: (la2 ++ lb))
        simp only [dfs, hgi, hgoal, Option.map_some']

theorem dfs_decompose {h : List Node} :
    ∀ {fuel : Nat} {a b l : List Nat}, dfs h fuel (a ++ b) = some l →
      ∃ la lb, l = la ++ lb ∧ dfs h la.length a = some la ∧ dfs h lb.length b = some lb := by
  intro fuel
  induction fuel with
  | zero =>
    intro a b l hd
    cases a with
    | nil =>
      exact ⟨[], l, by simp, dfs_nil h 0, dfs_fuel hd (Nat.le_refl _)⟩
    | cons i rest => exact Option.noConfusion hd
  | succ fuel ih =>
    intro a b l hd
    cases a with
    | nil =>
      exact ⟨[], l, by simp, dfs_nil h 0, dfs_fuel hd (Nat.le_refl _)⟩
    | cons i rest =>
      rw [List.cons_append] at hd
      obtain ⟨nd, l2, hgi, hd2, hl⟩ := dfs_cons hd
      subst hl
      rw [← List.append_assoc] at hd2
      obtain ⟨lx, lb, hsplit, hx, hb⟩ := ih hd2
      subst hsplit
      refine ⟨i :: lx, lb, by simp, ?_, hb⟩
      simp only [List.length_cons, dfs, hgi]
      rw [show dfs h lx.length (nd.children ++ rest) = some lx from hx]
      rfl

theorem dfs_extend {h ext : List Node} :
    ∀ {fuel : Nat} {st l : List Nat}, dfs h fuel st = some l →
      dfs (h ++ ext) fuel st = some l := by
  intro fuel
  induction fuel with
  | zero =>
    intro st l hd
    cases st with
    | nil => simpa [dfs] using hd
    | cons i rest => exact Option.noConfusion hd
  | succ fuel ih =>
    intro st l hd
    cases st with
    | nil => simpa [dfs] using hd
    | cons i rest =>
      obtain ⟨nd, l2, hgi, hd2, hl⟩ := dfs_cons hd
      subst hl
      have hi : i < h.length := by
        by_contra hlt
        rw [List.get?_len_le (Nat.le_of_not_lt hlt)] at hgi
        exact Option.noConfusion hgi
      simp only [dfs, List.get?_append hi, hgi, ih hd2, Option.map_some']

theorem dfs_congr {h1 h2 : List Node} (hc : ∀ j, coreAt h1 j = coreAt h2 j) :
    ∀ {fuel : Nat} {st : List Nat}, dfs h1 fuel st = dfs h2 fuel st := by
  intro fuel
  induction fuel with
  | zero =>
    intro st
    cases st with
    | nil => rfl
    | cons i rest => rfl
  | succ fuel ih =>
    intro st
    cases st with
    | nil => rfl
    | cons i rest =>
      have hci := hc i
      unfold coreAt at hci
      cases hg1 : h1.get? i with
      | none =>
        rw [hg1] at hci
        cases hg2 : h2.get? i with
        | none => simp only [dfs, hg1, hg2]
        | some nd2 => rw [hg2] at hci; simp at hci
      | some nd1 =>
        rw [hg1] at hci
        cases hg2 : h2.get? i with
        | none => rw [hg2] at hci; simp at hci
        | some nd2 =>
          rw [hg2] at hci
          simp only [Option.map_some'] at hci
          have hch : nd1.children = nd2.children := by
            have := Option.some.inj hci
            unfold Node.core at this
            exact congrArg NodeCore.children this
          simp only [dfs, hg1, hg2, hch, ih]

theorem setMark_eq {h : List Node} {i : Nat} {nd : Node} (b : Bool)
    (hg : h.get? i = some nd) :
    setMark b h i = h.set i { nd with marked := b } := by
  unfold setMark
  rw [hg]

theorem dfs_head {h : List Node} {fuel i : Nat} {rest l : List Nat}
    (hd : dfs h fuel (i :: rest) = some l) : ∃ l2, l = i :: l2 := by
  cases fuel with
  | zero => exact Option.noConfusion hd
  | succ fuel =>
    obtain ⟨nd, l2, _, _, hl⟩ := dfs_cons hd
    exact ⟨l2, hl⟩

theorem validate_chunk :
    ∀ (n : Nat) {h : List Node} {l a : List Nat} (rest : List Nat) (fuel : Nat),
      l.length = n →
      dfs h l.length a = some l → l.Nodup → (∀ j ∈ l, markedAt h j = false) →
      validate h (l.length + fuel) (a ++ rest) = validate (paint true l h) fuel rest := by
  intro n
  induction n using Nat.strong_induction_on with
  | _ n ih =>
    intro h l a rest fuel hn hd hnd hm
    cases a with
    | nil =>
      rw [dfs_nil] at hd
      cases hd
      simp [paint]
    | cons i rest2 =>
      obtain ⟨l2, hl⟩ := dfs_head hd
      subst hl
      rw [List.length_cons] at hd
      obtain ⟨nd, l2x, hgi, hd2, hlx⟩ := dfs_cons hd
      have hl2 : l2x = l2 := by
        have := hlx
        simp at this
        exact this.symm
      rw [hl2] at hd2
      have hmark : nd.marked = false := by
        have := hm i (List.mem_cons_self i l2)
        unfold markedAt at this
        rw [hgi] at this
        exact this
      have hstep : validate h (l2.length + fuel + 1) ((i :: rest2) ++ rest) =
          validate (setMark true h i) (l2.length + fuel) (nd.children ++ (rest2 ++ rest)) := by
        rw [setMark_eq true hgi]
        simp only [List.cons_append, validate, hgi, hmark]
        rfl
      have hcore : ∀ j, coreAt (setMark true h i) j = coreAt h j :=
        fun j => coreAt_setMark true h i j
      have hd2b : dfs (setMark true h i) l2.length (nd.children ++ rest2) = some l2 := by
        rw [dfs_congr hcore]
        exact hd2
      have hnd2 : l2.Nodup := (List.nodup_cons.mp hnd).2
      have hni : i ∉ l2 := (List.nodup_cons.mp hnd).1
      have hm2 : ∀ j ∈ l2, markedAt (setMark true h i) j = false := by
        intro j hj
        rw [markedAt_setMark]
        rw [if_neg (by rintro ⟨he, _⟩; exact hni (he.symm ▸ hj))]
        exact hm j (List.mem_cons_of_mem i hj)
      have hrec := ih l2.length (by simp at hn; omega) rest fuel rfl hd2b hnd2 hm2
      have hfl : l2.length + 1 + fuel = l2.length + fuel + 1 := by omega
      rw [List.length_cons, hfl, hstep, ← List.append_assoc, hrec]
      rfl

theorem validate_ok {h : List Node} {l a : List Nat} {fuel : Nat}
    (hd : dfs h l.length a = some l) (hnd : l.Nodup)
    (hm : ∀ j ∈ l, markedAt h j = false) :
    validate h (l.length + fuel) a = some (paint true l h) := by
  have := validate_chunk l.length [] fuel rfl hd hnd hm
  rw [List.append_nil] at this
  rw [this]
  cases fuel <;> rfl

theorem clear_chunk :
    ∀ (n : Nat) {h : List Node} {l a : List Nat} (rest : List Nat) (fuel : Nat),
      l.length = n →
      dfs h l.length a = some l →
      clearMarks h (l.length + fuel) (a ++ rest) = clearMarks (paint false l h) fuel rest := by
  intro n
  induction n using Nat.strong_induction_on with
  | _ n ih =>
    intro h l a rest fuel hn hd
    cases a with
    | nil =>
      rw [dfs_nil] at hd
      cases hd
      simp [paint]
    | cons i rest2 =>
      obtain ⟨l2, hl⟩ := dfs_head hd
      subst hl
      rw [List.length_cons] at hd
      obtain ⟨nd, l2x, hgi, hd2, hlx⟩ := dfs_cons hd
      have hl2 : l2x = l2 := by
        have := hlx
        simp at this
        exact this.symm
      rw [hl2] at hd2
      have hstep : clearMarks h (l2.length + fuel + 1) ((i :: rest2) ++ rest) =
          clearMarks (setMark false h i) (l2.length + fuel) (nd.children ++ (rest2 ++ rest)) := by
        rw [setMark_eq false hgi]
        simp only [List.cons_append, clearMarks, hgi]
        rfl
      have hcore : ∀ j, coreAt (setMark false h i) j = coreAt h j :=
        fun j => coreAt_setMark false h i j
      have hd2b : dfs (setMark false h i) l2.length (nd.children ++ rest2) = some l2 := by
        rw [dfs_congr hcore]
        exact hd2
      have hrec := ih l2.length (by simp at hn; omega) rest fuel rfl hd2b
      have hfl : l2.length + 1 + fuel = l2.length + fuel + 1 := by omega
      rw [List.length_cons, hfl, hstep, ← List.append_assoc, hrec]
      rfl

theorem clear_ok {h : List Node} {l a : List Nat} {fuel : Nat}
    (hd : dfs h l.length a = some l) :
    clearMarks h (l.length + fuel) a = paint false l h := by
  have := clear_chunk l.length [] fuel rfl hd
  rw [List.append_nil] at this
  rw [this]
  cases fuel <;> rfl

theorem validate_cores {h h2 : List Node} :
    ∀ {fuel : Nat} {st : List Nat}, validate h fuel st = some h2 →
      h2.length = h.length ∧ ∀ j, coreAt h2 j = coreAt h j := by
  intro fuel
  induction fuel generalizing h with
  | zero =>
    intro st hv
    cases st with
    | nil =>
      simp only [validate] at hv
      cases hv
      exact ⟨rfl, fun _ => rfl⟩
    | cons i rest => exact Option.noConfusion hv
  | succ fuel ih =>
    intro st hv
    cases st with
    | nil =>
      simp only [validate] at hv
      cases hv
      exact ⟨rfl, fun _ => rfl⟩
    | cons i rest =>
      cases hgi : h.get? i with
      | none =>
        simp only [validate, hgi] at hv
        exact Option.noConfusion hv
      | some nd =>
        simp only [validate, hgi] at hv
        by_cases hmk : nd.marked
        · rw [if_pos hmk] at hv
          exact Option.noConfusion hv
        · rw [if_neg hmk] at hv
          obtain ⟨hlen, hcores⟩ := ih hv
          rw [← setMark_eq true hgi] at hlen hcores
          refine ⟨by rw [hlen, length_setMark], fun j => ?_⟩
          rw [hcores j, coreAt_setMark]

theorem clear_cores {h : List Node} :
    ∀ (fuel : Nat) (st : List Nat),
      (clearMarks h fuel st).length = h.length ∧
        ∀ j, coreAt (clearMarks h fuel st) j = coreAt h j := by
  intro fuel
  induction fuel generalizing h with
  | zero =>
    intro st
    cases st with
    | nil => exact ⟨rfl, fun _ => rfl⟩
    | cons i rest => exact ⟨rfl, fun _ => rfl⟩
  | succ fuel ih =>
    intro st
    cases st with
    | nil => exact ⟨rfl, fun _ => rfl⟩
    | cons i rest =>
      cases hgi : h.get? i with
      | none =>
        simp only [clearMarks, hgi]
        exact ih _
      | some nd =>
        simp only [clearMarks, hgi]
        obtain ⟨hlen, hcores⟩ := ih (h := h.set i { nd with marked := false })
          (nd.children ++ rest)
        have hc2 : ∀ j, coreAt (h.set i { nd with marked := false }) j = coreAt h j := by
          intro j
          rw [← setMark_eq false hgi]
          exact coreAt_setMark false h i j
        refine ⟨by rw [hlen, List.length_set], fun j => ?_⟩
        rw [hcores j, hc2 j]

/-! ## Published queries and construction -/

/-- The operator names accepted by the `assert` in `Query.__init__`. -/
def opOk (op : String) : Prop :=
  op ∈ (["AND", "OR", "NOT"] : List String)

/-- A published query object: its tree is a finite, duplicate-free
structure (the pre-order traversal from its root is some duplicate-free id
list `S`) with all marks cleared — exactly the state in which every
successful `Query.__init__` leaves its own tree and its nested queries'
trees. -/
def Published (h : List Node) (q : Query) (S : List Nat) : Prop :=
  dfs h S.length [q.root] = some S ∧ S.Nodup ∧ ∀ j ∈ S, markedAt h j = false

/-- A list of nested-query arguments whose trees are published and pairwise
share no node (their id lists concatenate without duplicates). -/
def NestedOk (h : List Node) (qs : List Query) (Ss : List (List Nat)) : Prop :=
  List.Forall₂ (Published h) qs Ss ∧ (Ss.join).Nodup

theorem nodup_length_le {l : List Nat} {n : Nat} (hnd : l.Nodup)
    (hb : ∀ j ∈ l, j < n) : l.length ≤ n := by
  have hsub : l.toFinset ⊆ Finset.range n := by
    intro j hj
    exact Finset.mem_range.mpr (hb j (List.mem_toFinset.mp hj))
  calc l.length = l.toFinset.card := (List.toFinset_card_of_nodup hnd).symm
  _ ≤ (Finset.range n).card := Finset.card_le_card hsub
  _ = n := Finset.card_range n

theorem set_get?_self {h : List Node} {i : Nat} {nd : Node}
    (hg : h.get? i = some nd) : h.set i nd = h := by
  apply List.ext_get?
  intro j
  by_cases hij : i = j
  · subst hij
    have hi : i < h.length := by
      by_contra hlt
      rw [List.get?_len_le (Nat.le_of_not_lt hlt)] at hg
      exact Option.noConfusion hg
    rw [List.get?_set_eq_of_lt _ hi, hg]
  · rw [List.get?_set_ne _ _ hij]

theorem setMark_noop {h : List Node} {i : Nat} (hm : markedAt h i = false) :
    setMark false h i = h := by
  unfold setMark
  cases hg : h.get? i with
  | none => rfl
  | some nd =>
    have hnd : nd.marked = false := by
      unfold markedAt at hm
      rw [hg] at hm
      exact hm
    have heq : { nd with marked := false } = nd := by
      cases nd
      simp_all
    show h.set i { nd with marked := false } = h
    rw [heq]
    exact set_get?_self hg

theorem paint_noop {h : List Node} :
    ∀ {l : List Nat}, (∀ j ∈ l, markedAt h j = false) → paint false l h = h := by
  intro l
  induction l with
  | nil => intro _; rfl
  | cons i l ih =>
    intro hm
    rw [paint, setMark_noop (hm i (List.mem_cons_self i l))]
    exact ih (fun j hj => hm j (List.mem_cons_of_mem i hj))

theorem paint_restore {h : List Node} {l : List Nat}
    (hm : ∀ j ∈ l, markedAt h j = false) :
    paint false l (paint true l h) = h := by
  apply heap_ext
  · intro j
    rw [coreAt_paint, coreAt_paint]
  · intro j
    rw [markedAt_paint, markedAt_paint, length_paint]
    by_cases hc : j ∈ l ∧ j < h.length
    · rw [if_pos hc]
      exact (hm j hc.1).symm
    · rw [if_neg hc, if_neg hc]

theorem dfs_leaves {h : List Node} :
    ∀ {ids : List Nat}, (∀ i ∈ ids, ∃ nd, h.get? i = some nd ∧ nd.children = []) →
      ∀ {fuel : Nat}, ids.length ≤ fuel → dfs h fuel ids = some ids := by
  intro ids
  induction ids with
  | nil => intro _ fuel _; exact dfs_nil h fuel
  | cons i rest ih =>
    intro hlv fuel hf
    obtain ⟨nd, hg, hch⟩ := hlv i (List.mem_cons_self i rest)
    cases fuel with
    | zero => simp at hf
    | succ fuel =>
      have hrest : dfs h fuel rest = some rest :=
        ih (fun j hj => hlv j (List.mem_cons_of_mem i hj)) (by simp at hf; omega)
      simp only [dfs, hg, hch, List.nil_append, hrest, Option.map_some']

theorem dfs_roots {h : List Node} :
    ∀ {qs : List Query} {Ss : List (List Nat)},
      List.Forall₂ (fun q S => dfs h S.length [q.root] = some S) qs Ss →
      dfs h (Ss.join).length (qs.map Query.root) = some Ss.join := by
  intro qs Ss hf
  induction hf with
  | nil => exact dfs_nil h 0
  | cons hq hrest ih =>
    rename_i q S qs2 Ss2
    have := dfs_append hq ih (g := (S ++ Ss2.join).length) (Nat.le_refl _)
    simpa using this

theorem Published_extend {h ext : List Node} {q : Query} {S : List Nat}
    (hp : Published h q S) : Published (h ++ ext) q S := by
  obtain ⟨hd, hnd, hm⟩ := hp
  refine ⟨dfs_extend hd, hnd, fun j hj => ?_⟩
  rw [markedAt_append_left (dfs_mem_lt hd j hj)]
  exact hm j hj

theorem NestedOk_extend {h ext : List Node} {qs : List Query} {Ss : List (List Nat)}
    (hn : NestedOk h qs Ss) : NestedOk (h ++ ext) qs Ss :=
  ⟨hn.1.imp (fun _ _ hp => Published_extend hp), hn.2⟩

theorem newNodes_length (op : String) (ts : List String) (qs : List Query) (f : String)
    (h : List Node) : (h ++ newNodes op ts qs f h).length = h.length + 1 + ts.length := by
  simp [newNodes]
  omega

theorem newNodes_get_root (op : String) (ts : List String) (qs : List Query) (f : String)
    (h : List Node) :
    (h ++ newNodes op ts qs f h).get? h.length =
      some ⟨op, true, f,
        (List.range ts.length).map (fun k => h.length + 1 + k) ++ qs.map Query.root, false⟩ := by
  rw [List.get?_append_right (Nat.le_refl _)]
  simp [newNodes]

theorem newNodes_get_term {ts : List String} {k : Nat} {t : String}
    (hk : ts.get? k = some t) (op : String) (qs : List Query) (f : String) (h : List Node) :
    (h ++ newNodes op ts qs f h).get? (h.length + 1 + k) =
      some ⟨t, false, f, [], false⟩ := by
  rw [List.get?_append_right (by omega)]
  have hidx : h.length + 1 + k - h.length = k + 1 := by omega
  rw [hidx]
  simp only [newNodes, List.get?_cons_succ, List.get?_map, hk, Option.map_some']

theorem newSpan_length (ts : List String) (Ss : List (List Nat)) (h : List Node) :
    (newSpan ts Ss h).length = 1 + ts.length + Ss.join.length := by
  simp [newSpan]
  omega

theorem forall2_mem_right {α β : Type} {R : α → β → Prop} :
    ∀ {as : List α} {bs : List β}, List.Forall₂ R as bs → ∀ b ∈ bs, ∃ a ∈ as, R a b := by
  intro as bs hf
  induction hf with
  | nil => intro b hb; exact absurd hb (List.not_mem_nil b)
  | cons hq hrest ih =>
    intro b hb
    rcases List.mem_cons.mp hb with he | hm
    · subst he
      exact ⟨_, List.mem_cons_self _ _, hq⟩
    · obtain ⟨a, ha, hr⟩ := ih b hm
      exact ⟨a, List.mem_cons_of_mem _ ha, hr⟩

theorem join_mem_lt {h : List Node} {qs : List Query} {Ss : List (List Nat)}
    (hf : List.Forall₂ (Published h) qs Ss) :
    ∀ j ∈ Ss.join, j < h.length := by
  intro j hj
  obtain ⟨S, hS, hjS⟩ := List.mem_join.mp hj
  obtain ⟨q, _, hp⟩ := forall2_mem_right hf S hS
  exact dfs_mem_lt hp.1 j hjS

theorem newSpan_nodup {h : List Node} {ts : List String} {qs : List Query}
    {Ss : List (List Nat)} (hn : NestedOk h qs Ss) : (newSpan ts Ss h).Nodup := by
  obtain ⟨hf, hjnd⟩ := hn
  have hjoin_lt : ∀ j ∈ Ss.join, j < h.length := join_mem_lt hf
  have htid : ∀ j ∈ (List.range ts.length).map (fun k => h.length + 1 + k),
      h.length + 1 ≤ j ∧ j < h.length + 1 + ts.length := by
    intro j hj
    obtain ⟨k, hk, hje⟩ := List.mem_map.mp hj
    rw [List.mem_range] at hk
    omega
  have htnd : ((List.range ts.length).map (fun k => h.length + 1 + k)).Nodup := by
    refine List.Nodup.map (fun a b hab => by omega) (List.nodup_range _)
  unfold newSpan
  rw [List.nodup_cons]
  constructor
  · intro hmem
    rcases List.mem_append.mp hmem with hm | hm
    · have := htid _ hm
      omega
    · have := hjoin_lt _ hm
      omega
  · rw [List.nodup_append]
    refine ⟨htnd, hjnd, ?_⟩
    intro a ha hb
    have h1 := htid a ha
    have h2 := hjoin_lt a hb
    omega

theorem newSpan_lt {h : List Node} {ts : List String} {qs : List Query}
    {Ss : List (List Nat)} (hf : List.Forall₂ (Published h) qs Ss) :
    ∀ j ∈ newSpan ts Ss h, j < h.length + 1 + ts.length := by
  intro j hj
  unfold newSpan at hj
  rcases List.mem_cons.mp hj with he | hm
  · omega
  · rcases List.mem_append.mp hm with hm2 | hm2
    · obtain ⟨k, hk, hje⟩ := List.mem_map.mp hm2
      rw [List.mem_range] at hk
      omega
    · have := join_mem_lt hf j hm2
      omega

theorem newSpan_unmarked {h : List Node} {op f : String} {ts : List String} {qs : List Query}
    {Ss : List (List Nat)} (hn : NestedOk h qs Ss) :
    ∀ j ∈ newSpan ts Ss h, markedAt (h ++ newNodes op ts qs f h) j = false := by
  obtain ⟨hf, _⟩ := hn
  intro j hj
  unfold newSpan at hj
  rcases List.mem_cons.mp hj with he | hm
  · subst he
    unfold markedAt
    rw [newNodes_get_root]
  · rcases List.mem_append.mp hm with hm2 | hm2
    · obtain ⟨k, hk, hje⟩ := List.mem_map.mp hm2
      rw [List.mem_range] at hk
      obtain ⟨t, ht⟩ : ∃ t, ts.get? k = some t :=
        ⟨ts.get ⟨k, hk⟩, List.get?_eq_some.mpr ⟨hk, rfl⟩⟩
      subst hje
      unfold markedAt
      rw [newNodes_get_term ht op qs f h]
    · have hlt := join_mem_lt hf j hm2
      rw [markedAt_append_left hlt]
      obtain ⟨S, hS, hjS⟩ := List.mem_join.mp hm2
      obtain ⟨q, _, hp⟩ := forall2_mem_right hf S hS
      exact hp.2.2 j hjS

theorem newSpan_dfs {h : List Node} {op f : String} {ts : List String} {qs : List Query}
    {Ss : List (List Nat)} (hn : NestedOk h qs Ss) :
    dfs (h ++ newNodes op ts qs f h) (newSpan ts Ss h).length [h.length] =
      some (newSpan ts Ss h) := by
  obtain ⟨hf, _⟩ := hn
  have hterm : dfs (h ++ newNodes op ts qs f h) ts.length
      ((List.range ts.length).map (fun k => h.length + 1 + k)) =
      some ((List.range ts.length).map (fun k => h.length + 1 + k)) := by
    refine dfs_leaves ?_ (by simp)
    intro i hi
    obtain ⟨k, hk, hje⟩ := List.mem_map.mp hi
    rw [List.mem_range] at hk
    obtain ⟨t, ht⟩ : ∃ t, ts.get? k = some t := ⟨ts.get ⟨k, hk⟩, List.get?_eq_some.mpr ⟨hk, rfl⟩⟩
    subst hje
    exact ⟨_, newNodes_get_term ht op qs f h, rfl⟩
  have hroots0 : dfs h Ss.join.length (qs.map Query.root) = some Ss.join :=
    dfs_roots (hf.imp (fun _ _ hp => hp.1))
  have hroots : dfs (h ++ newNodes op ts qs f h) Ss.join.length (qs.map Query.root) =
      some Ss.join := dfs_extend hroots0
  have hkids : dfs (h ++ newNodes op ts qs f h) (ts.length + Ss.join.length)
      ((List.range ts.length).map (fun k => h.length + 1 + k) ++ qs.map Query.root) =
      some ((List.range ts.length).map (fun k => h.length + 1 + k) ++ Ss.join) :=
    dfs_append hterm hroots (by simp)
  have hlen : (newSpan ts Ss h).length = (ts.length + Ss.join.length) + 1 := by
    rw [newSpan_length]
    omega
  rw [hlen]
  simp only [dfs, newNodes_get_root, List.append_nil, hkids, Option.map_some']
  rfl

theorem fold_clear_id {hh : List Node} :
    ∀ {qs : List Query} {Ss : List (List Nat)}, List.Forall₂ (Published hh) qs Ss →
      qs.foldl (fun h2 q => clearMarks h2 (h2.length + 1) [q.root]) hh = hh := by
  intro qs Ss hf
  induction hf with
  | nil => rfl
  | cons hq hrest ih =>
    rename_i q S qs2 Ss2
    obtain ⟨hd, hnd, hm⟩ := hq
    have hlt : ∀ j ∈ S, j < hh.length := dfs_mem_lt hd
    have hle : S.length ≤ hh.length := nodup_length_le hnd hlt
    have hone : clearMarks hh (hh.length + 1) [q.root] = hh := by
      have hfuel : hh.length + 1 = S.length + (hh.length + 1 - S.length) := by omega
      rw [hfuel, clear_ok hd, paint_noop hm]
    rw [List.foldl_cons, hone]
    exact ih

theorem mkQuery_ok {h : List Node} {op f : String} (ts : List String) {qs : List Query}
    {Ss : List (List Nat)} (hop : opOk op) (hn : NestedOk h qs Ss) :
    mkQuery op ts qs f h = some (⟨h.length⟩, h ++ newNodes op ts qs f h) ∧
      Published (h ++ newNodes op ts qs f h) ⟨h.length⟩ (newSpan ts Ss h) := by
  have hd : dfs (h ++ newNodes op ts qs f h) (newSpan ts Ss h).length [h.length] =
      some (newSpan ts Ss h) := newSpan_dfs hn
  have hnd : (newSpan ts Ss h).Nodup := newSpan_nodup hn
  have hun : ∀ j ∈ newSpan ts Ss h, markedAt (h ++ newNodes op ts qs f h) j = false :=
    newSpan_unmarked hn
  have hlt : ∀ j ∈ newSpan ts Ss h, j < (h ++ newNodes op ts qs f h).length := by
    intro j hj
    rw [newNodes_length]
    exact newSpan_lt hn.1 j hj
  have hle : (newSpan ts Ss h).length ≤ (h ++ newNodes op ts qs f h).length :=
    nodup_length_le hnd hlt
  have hval : validate (h ++ newNodes op ts qs f h)
      ((h ++ newNodes op ts qs f h).length + 1) [h.length] =
      some (paint true (newSpan ts Ss h) (h ++ newNodes op ts qs f h)) := by
    have hfuel : (h ++ newNodes op ts qs f h).length + 1 =
        (newSpan ts Ss h).length +
          ((h ++ newNodes op ts qs f h).length + 1 - (newSpan ts Ss h).length) := by omega
    rw [hfuel]
    exact validate_ok hd hnd hun
  have hlen2 : (paint true (newSpan ts Ss h) (h ++ newNodes op ts qs f h)).length =
      (h ++ newNodes op ts qs f h).length := length_paint _ _ _
  have hd2 : dfs (paint true (newSpan ts Ss h) (h ++ newNodes op ts qs f h))
      (newSpan ts Ss h).length [h.length] = some (newSpan ts Ss h) := by
    rw [dfs_congr (fun j => coreAt_paint true (newSpan ts Ss h) (h ++ newNodes op ts qs f h) j)]
    exact hd
  have hclear : clearMarks (paint true (newSpan ts Ss h) (h ++ newNodes op ts qs f h))
      ((paint true (newSpan ts Ss h) (h ++ newNodes op ts qs f h)).length + 1) [h.length] =
      h ++ newNodes op ts qs f h := by
    have hfuel : (paint true (newSpan ts Ss h) (h ++ newNodes op ts qs f h)).length + 1 =
        (newSpan ts Ss h).length +
          ((paint true (newSpan ts Ss h) (h ++ newNodes op ts qs f h)).length + 1 -
            (newSpan ts Ss h).length) := by
      rw [hlen2]
      omega
    rw [hfuel, clear_ok hd2, paint_restore hun]
  have hfold : qs.foldl (fun h2 q => clearMarks h2 (h2.length + 1) [q.root])
      (h ++ newNodes op ts qs f h) = h ++ newNodes op ts qs f h :=
    fold_clear_id (NestedOk_extend hn).1
  refine ⟨?_, hd, hnd, hun⟩
  have hop2 : op ∈ (["AND", "OR", "NOT"] : List String) := hop
  unfold mkQuery
  rw [if_pos hop2]
  simp only [newNodes] at hval hclear hfold
  simp only [hval, hclear, hfold, newNodes]

theorem termIds_facts (h : List Node) (ts : List String) :
    ((List.range ts.length).map (fun k => h.length + 1 + k)).Nodup ∧
      ∀ j ∈ (List.range ts.length).map (fun k => h.length + 1 + k),
        h.length + 1 ≤ j ∧ j < h.length + 1 + ts.length := by
  constructor
  · exact List.Nodup.map (fun a b hab => by omega) (List.nodup_range _)
  · intro j hj
    obtain ⟨k, hk, hje⟩ := List.mem_map.mp hj
    rw [List.mem_range] at hk
    omega

theorem termIds_dfs {h : List Node} {op f : String} {ts : List String} {qs : List Query} :
    dfs (h ++ newNodes op ts qs f h) ts.length
      ((List.range ts.length).map (fun k => h.length + 1 + k)) =
      some ((List.range ts.length).map (fun k => h.length + 1 + k)) := by
  refine dfs_leaves ?_ (by simp)
  intro i hi
  obtain ⟨k, hk, hje⟩ := List.mem_map.mp hi
  rw [List.mem_range] at hk
  obtain ⟨t, ht⟩ : ∃ t, ts.get? k = some t := ⟨ts.get ⟨k, hk⟩, List.get?_eq_some.mpr ⟨hk, rfl⟩⟩
  subst hje
  exact ⟨_, newNodes_get_term ht op qs f h, rfl⟩

theorem termIds_unmarked {h : List Node} {op f : String} {ts : List String} {qs : List Query} :
    ∀ j ∈ (List.range ts.length).map (fun k => h.length + 1 + k),
      markedAt (h ++ newNodes op ts qs f h) j = false := by
  intro j hj
  obtain ⟨k, hk, hje⟩ := List.mem_map.mp hj
  rw [List.mem_range] at hk
  obtain ⟨t, ht⟩ : ∃ t, ts.get? k = some t := ⟨ts.get ⟨k, hk⟩, List.get?_eq_some.mpr ⟨hk, rfl⟩⟩
  subst hje
  unfold markedAt
  rw [newNodes_get_term ht op qs f h]

theorem mkQuery_dup_fail {h : List Node} {op f : String} {ts : List String} {q : Query}
    {S : List Nat} (hop : opOk op) (hp : Published h q S) :
    mkQuery op ts [q, q] f h = none := by
  obtain ⟨hd_q, hnd_S, hm_S⟩ := hp
  obtain ⟨S2, hS2⟩ := dfs_head hd_q
  have hqmem : q.root ∈ S := by rw [hS2]; exact List.mem_cons_self _ _
  have hS_lt : ∀ j ∈ S, j < h.length := dfs_mem_lt hd_q
  have hS_le : S.length ≤ h.length := nodup_length_le hnd_S hS_lt
  obtain ⟨htnd, htb⟩ := termIds_facts h ts
  have hterm_dfs : dfs (h ++ newNodes op ts [q, q] f h) ts.length
      ((List.range ts.length).map (fun k => h.length + 1 + k)) =
      some ((List.range ts.length).map (fun k => h.length + 1 + k)) := termIds_dfs
  have hq_dfs1 : dfs (h ++ newNodes op ts [q, q] f h) S.length [q.root] = some S :=
    dfs_extend hd_q
  have hl_dfs : dfs (h ++ newNodes op ts [q, q] f h)
      ((List.range ts.length).map (fun k => h.length + 1 + k) ++ S).length
      ((List.range ts.length).map (fun k => h.length + 1 + k) ++ [q.root]) =
      some ((List.range ts.length).map (fun k => h.length + 1 + k) ++ S) :=
    dfs_append hterm_dfs hq_dfs1 (by simp)
  have hlen1 : (h ++ newNodes op ts [q, q] f h).length = h.length + 1 + ts.length :=
    newNodes_length op ts [q, q] f h
  have hroot_get := newNodes_get_root op ts [q, q] f h
  have hl_dfs_m : dfs (setMark true (h ++ newNodes op ts [q, q] f h) h.length)
      ((List.range ts.length).map (fun k => h.length + 1 + k) ++ S).length
      ((List.range ts.length).map (fun k => h.length + 1 + k) ++ [q.root]) =
      some ((List.range ts.length).map (fun k => h.length + 1 + k) ++ S) := by
    rw [dfs_congr (fun j => coreAt_setMark true (h ++ newNodes op ts [q, q] f h) h.length j)]
    exact hl_dfs
  have hl_nd : ((List.range ts.length).map (fun k => h.length + 1 + k) ++ S).Nodup := by
    rw [List.nodup_append]
    refine ⟨htnd, hnd_S, ?_⟩
    intro a ha hb
    have h1 := htb a ha
    have h2 := hS_lt a hb
    omega
  have hl_un : ∀ j ∈ (List.range ts.length).map (fun k => h.length + 1 + k) ++ S,
      markedAt (setMark true (h ++ newNodes op ts [q, q] f h) h.length) j = false := by
    intro j hj
    rw [markedAt_setMark]
    rcases List.mem_append.mp hj with hm2 | hm2
    · rw [if_neg (by rintro ⟨he, _⟩; have := htb j hm2; omega)]
      exact termIds_unmarked j hm2
    · rw [if_neg (by rintro ⟨he, _⟩; have := hS_lt j hm2; omega)]
      rw [markedAt_append_left (hS_lt j hm2)]
      exact hm_S j hm2
  have hfuel2 : 1 ≤ h.length + 1 - S.length := by omega
  have hchunk := validate_chunk
    ((List.range ts.length).map (fun k => h.length + 1 + k) ++ S).length
    [q.root] (h.length + 1 - S.length) rfl hl_dfs_m hl_nd hl_un
  have hfinal : validate
      (paint true ((List.range ts.length).map (fun k => h.length + 1 + k) ++ S)
        (setMark true (h ++ newNodes op ts [q, q] f h) h.length))
      (h.length + 1 - S.length) [q.root] = none := by
    have hmk : markedAt
        (paint true ((List.range ts.length).map (fun k => h.length + 1 + k) ++ S)
          (setMark true (h ++ newNodes op ts [q, q] f h) h.length)) q.root = true := by
      rw [markedAt_paint]
      rw [if_pos ⟨List.mem_append_right _ hqmem, by
        rw [length_setMark, hlen1]
        have := hS_lt q.root hqmem
        omega⟩]
    obtain ⟨fz, hfz⟩ : ∃ fz, h.length + 1 - S.length = fz + 1 := by
      refine ⟨h.length - S.length, by omega⟩
    rw [hfz]
    cases hg : (paint true ((List.range ts.length).map (fun k => h.length + 1 + k) ++ S)
        (setMark true (h ++ newNodes op ts [q, q] f h) h.length)).get? q.root with
    | none =>
      unfold markedAt at hmk
      rw [hg] at hmk
      exact Bool.noConfusion hmk
    | some nd =>
      have hndm : nd.marked = true := by
        unfold markedAt at hmk
        rw [hg] at hmk
        exact hmk
      simp only [validate, hg, hndm]
      rfl
  have hvalnone : validate (h ++ newNodes op ts [q, q] f h)
      ((h ++ newNodes op ts [q, q] f h).length + 1) [h.length] = none := by
    have hstep : validate (h ++ newNodes op ts [q, q] f h)
        ((h ++ newNodes op ts [q, q] f h).length + 1) [h.length] =
        validate (setMark true (h ++ newNodes op ts [q, q] f h) h.length)
          (h ++ newNodes op ts [q, q] f h).length
          (((List.range ts.length).map (fun k => h.length + 1 + k) ++
            [Query.root q, Query.root q]) ++ []) := by
      rw [setMark_eq true hroot_get]
      simp only [validate, hroot_get]
      rfl
    rw [hstep]
    have hsh : ((List.range ts.length).map (fun k => h.length + 1 + k) ++
        [Query.root q, Query.root q]) ++ [] =
        ((List.range ts.length).map (fun k => h.length + 1 + k) ++ [q.root]) ++ [q.root] := by
      simp
    rw [hsh]
    have hflen : (h ++ newNodes op ts [q, q] f h).length =
        ((List.range ts.length).map (fun k => h.length + 1 + k) ++ S).length +
          (h.length + 1 - S.length) := by
      rw [hlen1]
      simp only [List.length_append, List.length_map, List.length_range]
      omega
    rw [hflen, hchunk, hfinal]
  have hop2 : op ∈ (["AND", "OR", "NOT"] : List String) := hop
  unfold mkQuery
  rw [if_pos hop2]
  simp only [newNodes] at hvalnone
  simp only [hvalnone, newNodes]

theorem fold_clear_cores :
    ∀ (qs : List Query) (hh : List Node),
      (qs.foldl (fun h2 q => clearMarks h2 (h2.length + 1) [q.root]) hh).length = hh.length ∧
        ∀ j, coreAt (qs.foldl (fun h2 q => clearMarks h2 (h2.length + 1) [q.root]) hh) j =
          coreAt hh j := by
  intro qs
  induction qs with
  | nil => exact fun hh => ⟨rfl, fun _ => rfl⟩
  | cons q qs ih =>
    intro hh
    rw [List.foldl_cons]
    obtain ⟨hl1, hc1⟩ := ih (clearMarks hh (hh.length + 1) [q.root])
    obtain ⟨hl2, hc2⟩ := clear_cores (h := hh) (hh.length + 1) [q.root]
    exact ⟨by rw [hl1, hl2], fun j => by rw [hc1 j, hc2 j]⟩

theorem mkQuery_some {op f : String} {ts : List String} {qs : List Query} {h hout : List Node}
    {q : Query} (hmk : mkQuery op ts qs f h = some (q, hout)) :
    q.root = h.length ∧ hout.length = (h ++ newNodes op ts qs f h).length ∧
      ∀ j, coreAt hout j = coreAt (h ++ newNodes op ts qs f h) j := by
  unfold mkQuery at hmk
  by_cases hop : op ∈ (["AND", "OR", "NOT"] : List String)
  · rw [if_pos hop] at hmk
    simp only [] at hmk
    cases hv : validate (h ++ newNodes op ts qs f h)
        ((h ++ newNodes op ts qs f h).length + 1) [h.length] with
    | none =>
      rw [hv] at hmk
      exact Option.noConfusion hmk
    | some h2 =>
      rw [hv] at hmk
      simp only [Option.some.injEq, Prod.mk.injEq] at hmk
      obtain ⟨hq, hho⟩ := hmk
      obtain ⟨hvl, hvc⟩ := validate_cores hv
      obtain ⟨hcl, hcc⟩ := clear_cores (h := h2) (h2.length + 1) [h.length]
      obtain ⟨hfl, hfc⟩ := fold_clear_cores qs (clearMarks h2 (h2.length + 1) [h.length])
      refine ⟨by rw [← hq], ?_, ?_⟩
      · rw [← hho, hfl, hcl, hvl]
      · intro j
        rw [← hho, hfc j, hcc j, hvc j]
  · rw [if_neg hop] at hmk
    exact Option.noConfusion hmk

/-- C6: for every construction `Query(operator, search_terms,
nested_queries, search_field)` that succeeds, the root of the resulting
tree has exactly `len(search_terms) + len(nested_queries)` children, in
order: first one fresh term node per entry of `search_terms` (in source
order, each a leaf carrying the term string and the given search field),
then the root node of each entry of `nested_queries` in source order. -/
theorem claim_C6_root_children {op f : String} {ts : List String} {qs : List Query}
    {h hout : List Node} {q : Query} (hmk : mkQuery op ts qs f h = some (q, hout)) :
    q.root = h.length ∧
      ∃ c, coreAt hout q.root = some c ∧
        c.children = (List.range ts.length).map (fun k => h.length + 1 + k) ++
          qs.map Query.root ∧
        c.children.length = ts.length + qs.length ∧
        ∀ k, (hk : k < ts.length) → coreAt hout (h.length + 1 + k) =
          some ⟨ts.get ⟨k, hk⟩, false, f, []⟩ := by
  obtain ⟨hq, _, hcores⟩ := mkQuery_some hmk
  refine ⟨hq, ⟨op, true, f,
    (List.range ts.length).map (fun k => h.length + 1 + k) ++ qs.map Query.root⟩, ?_, rfl, ?_, ?_⟩
  · rw [hq, hcores]
    unfold coreAt
    rw [newNodes_get_root]
    rfl
  · simp
  · intro k hk
    rw [hcores]
    unfold coreAt
    rw [newNodes_get_term (List.get?_eq_some.mpr ⟨hk, rfl⟩) op qs f h]
    rfl

/-- C6 witness: a concrete successful construction with two terms and no
nested queries, checked against the conclusion of the theorem. -/
theorem claim_C6_root_children_witness :
    mkQuery "AND" ["x", "y"] [] "Title" [] =
      some (⟨0⟩, [⟨"AND", true, "Title", [1, 2], false⟩, ⟨"x", false, "Title", [], false⟩,
        ⟨"y", false, "Title", [], false⟩]) ∧
      (⟨0⟩ : Query).root = 0 ∧
      ∃ c, coreAt [⟨"AND", true, "Title", [1, 2], false⟩, ⟨"x", false, "Title", [], false⟩,
          ⟨"y", false, "Title", [], false⟩] (⟨0⟩ : Query).root = some c ∧
        c.children = (List.range (["x", "y"] : List String).length).map (fun k => 0 + 1 + k) ++
          ([] : List Query).map Query.root ∧
        c.children.length = (["x", "y"] : List String).length + ([] : List Query).length ∧
        ∀ k, (hk : k < (["x", "y"] : List String).length) →
          coreAt [⟨"AND", true, "Title", [1, 2], false⟩, ⟨"x", false, "Title", [], false⟩,
            ⟨"y", false, "Title", [], false⟩] (0 + 1 + k) =
            some ⟨(["x", "y"] : List String).get ⟨k, hk⟩, false, "Title", []⟩ := by
  have hmk : mkQuery "AND" ["x", "y"] [] "Title" [] =
      some (⟨0⟩, [⟨"AND", true, "Title", [1, 2], false⟩, ⟨"x", false, "Title", [], false⟩,
        ⟨"y", false, "Title", [], false⟩]) := by decide
  exact ⟨hmk, claim_C6_root_children hmk⟩

/-- C1 (amended): constructing two Query objects whose trees share no node
never raises — any two successive constructions from published,
pairwise-disjoint nested inputs both succeed; but using the same Query
object `q` as a nested query in two different parent Query constructions
does NOT raise: after each successful construction every mark on the tree
and on the nested queries' trees is cleared, so the second parent
construction validates q's subtree afresh and succeeds.  The mark-based
depth-first traversal rejects a shared subtree only within a single
construction: nesting the same `q` twice in one parent raises. -/
theorem claim_C1_amended :
    (∀ (h : List Node) (op1 op2 f1 f2 : String) (ts1 ts2 : List String)
        (qs1 qs2 : List Query) (Ss1 Ss2 : List (List Nat)),
      opOk op1 → opOk op2 → NestedOk h qs1 Ss1 →
      ∃ q1 h1, mkQuery op1 ts1 qs1 f1 h = some (q1, h1) ∧
        (NestedOk h1 qs2 Ss2 → List.Disjoint (newSpan ts1 Ss1 h) Ss2.join →
          ∃ q2 h2, mkQuery op2 ts2 qs2 f2 h1 = some (q2, h2))) ∧
    (∀ (h : List Node) (q : Query) (S : List Nat) (op1 op2 f1 f2 : String)
        (ts1 ts2 : List String),
      opOk op1 → opOk op2 → Published h q S →
      ∃ p1 h1, mkQuery op1 ts1 [q] f1 h = some (p1, h1) ∧
        ∃ p2 h2, mkQuery op2 ts2 [q] f2 h1 = some (p2, h2)) ∧
    (∀ (h : List Node) (q : Query) (S : List Nat) (op f : String) (ts : List String),
      opOk op → Published h q S → mkQuery op ts [q, q] f h = none) := by
  refine ⟨?_, ?_, ?_⟩
  · intro h op1 op2 f1 f2 ts1 ts2 qs1 qs2 Ss1 Ss2 hop1 hop2 hn1
    obtain ⟨hmk1, _⟩ := mkQuery_ok ts1 (f := f1) hop1 hn1
    refine ⟨⟨h.length⟩, h ++ newNodes op1 ts1 qs1 f1 h, hmk1, ?_⟩
    intro hn2 _
    obtain ⟨hmk2, _⟩ := mkQuery_ok ts2 (f := f2) hop2 hn2
    exact ⟨_, _, hmk2⟩
  · intro h q S op1 op2 f1 f2 ts1 ts2 hop1 hop2 hp
    have hn1 : NestedOk h [q] [S] := by
      refine ⟨List.Forall₂.cons hp List.Forall₂.nil, ?_⟩
      simpa using hp.2.1
    obtain ⟨hmk1, _⟩ := mkQuery_ok ts1 (f := f1) hop1 hn1
    refine ⟨⟨h.length⟩, h ++ newNodes op1 ts1 [q] f1 h, hmk1, ?_⟩
    have hp2 : Published (h ++ newNodes op1 ts1 [q] f1 h) q S := Published_extend hp
    have hn2 : NestedOk (h ++ newNodes op1 ts1 [q] f1 h) [q] [S] := by
      refine ⟨List.Forall₂.cons hp2 List.Forall₂.nil, ?_⟩
      simpa using hp2.2.1
    obtain ⟨hmk2, _⟩ := mkQuery_ok ts2 (f := f2) hop2 hn2
    exact ⟨_, _, hmk2⟩
  · intro h q S op f ts hop hp
    exact mkQuery_dup_fail hop hp

/-- C1 counterexample to the claim as stated: a concrete Query `q` (an OR
query over one term) is used as a nested query in two successive parent
constructions, and the second parent construction does not raise — the
whole chain succeeds, refuting "must raise a construction error". -/
theorem claim_C1_counterexample :
    (do
      let (q, h) ← mkQuery "OR" ["l"] [] "Title" []
      let (_, h1) ← mkQuery "AND" ["c"] [q] "Abstract" h
      mkQuery "AND" ["d"] [q] "Abstract" h1).isSome = true := by
  decide

/-- C1 witness: the amended theorem applied to concrete inputs — a leaf
heap with one published single-node query — discharging every hypothesis. -/
theorem claim_C1_amended_witness :
    (∃ q1 h1, mkQuery "AND" ["a"] [] "Title" [] = some (q1, h1) ∧
      (NestedOk h1 [] [] → List.Disjoint (newSpan ["a"] [] []) ([] : List (List Nat)).join →
        ∃ q2 h2, mkQuery "OR" ["b"] [] "Author" h1 = some (q2, h2))) ∧
    (∃ p1 h1,
      mkQuery "AND" ["c"] [⟨0⟩] "Abstract" [⟨"t", false, "Title", [], false⟩] =
        some (p1, h1) ∧
      ∃ p2 h2, mkQuery "OR" ["d"] [⟨0⟩] "Author" h1 = some (p2, h2)) ∧
    mkQuery "NOT" ["e"] [⟨0⟩, ⟨0⟩] "Abstract" [⟨"t", false, "Title", [], false⟩] = none := by
  have hp : Published [⟨"t", false, "Title", [], false⟩] ⟨0⟩ [0] := by
    unfold Published
    refine ⟨by decide, by decide, by decide⟩
  have hn : NestedOk [] [] [] := by
    unfold NestedOk
    exact ⟨List.Forall₂.nil, by decide⟩
  have hA : opOk "AND" := by unfold opOk; decide
  have hO : opOk "OR" := by unfold opOk; decide
  have hN : opOk "NOT" := by unfold opOk; decide
  refine ⟨?_, ?_, ?_⟩
  · exact claim_C1_amended.1 [] "AND" "OR" "Title" "Author" ["a"] ["b"] [] [] [] [] hA hO hn
  · exact claim_C1_amended.2.1 [⟨"t", false, "Title", [], false⟩] ⟨0⟩ [0] "AND" "OR"
      "Abstract" "Author" ["c"] ["d"] hA hO hp
  · exact claim_C1_amended.2.2 [⟨"t", false, "Title", [], false⟩] ⟨0⟩ [0] "NOT" "Abstract"
      ["e"] hN hp

/-! ## Serializer abort lemmas -/

theorem termLeavesB_sub {h : List Node} {S T : List Nat}
    (hs : ∀ j ∈ T, j ∈ S) (ht : termLeavesB h S = true) : termLeavesB h T = true := by
  rw [termLeavesB, List.all_eq_true] at ht ⊢
  exact fun j hj => ht j (hs j hj)

theorem pubmed_bad_none_aux {h : List Node} :
    ∀ (fuel : Nat),
      (∀ (r : Nat) (S : List Nat), dfs h S.length [r] = some S →
        termLeavesB h S = true → isOpAtB h r = true → hasBadPubB h S = true →
        pubmedAux h fuel (SerCall.node r) = none) ∧
      (∀ (pv : String) (first : Bool) (cs : List Nat) (S : List Nat),
        dfs h S.length cs = some S → termLeavesB h S = true → hasBadPubB h S = true →
        pubmedAux h fuel (SerCall.kids pv first cs) = none) := by
  intro fuel
  induction fuel with
  | zero => exact ⟨fun _ _ _ _ _ _ => rfl, fun _ _ _ _ _ _ _ => rfl⟩
  | succ fuel ih =>
    constructor
    · intro r S hd htl hop hbad
      obtain ⟨S2, hS2⟩ := dfs_head hd
      subst hS2
      rw [List.length_cons] at hd
      obtain ⟨nd, l2, hg, hd2, hl⟩ := dfs_cons hd
      have hl2 : S2 = l2 := by
        have := hl
        simp at this
        exact this
      subst hl2
      rw [List.append_nil] at hd2
      have hndop : nd.operator = true := by
        rw [isOpAtB, hg] at hop
        exact hop
      have hbad2 : hasBadPubB h S2 = true := by
        rw [hasBadPubB, List.any_eq_true] at hbad ⊢
        obtain ⟨j, hj, hpj⟩ := hbad
        rcases List.mem_cons.mp hj with he | hm
        · subst he
          rw [hg] at hpj
          simp [hndop] at hpj
        · exact ⟨j, hm, hpj⟩
      have htl2 : termLeavesB h S2 = true :=
        termLeavesB_sub (fun j hj => List.mem_cons_of_mem r hj) htl
      rw [show pubmedAux h (fuel + 1) (SerCall.node r) =
          pubmedAux h fuel (SerCall.kids nd.value true nd.children) by
        simp only [pubmedAux, hg]]
      exact ih.2 nd.value true nd.children S2 hd2 htl2 hbad2
    · intro pv first cs S hd htl hbad
      cases cs with
      | nil =>
        rw [dfs_nil] at hd
        cases hd
        rw [hasBadPubB] at hbad
        simp at hbad
      | cons c rest =>
        rw [show (c :: rest : List Nat) = [c] ++ rest from rfl] at hd
        obtain ⟨Sc, Srest, hsplit, hdc, hdrest⟩ := dfs_decompose hd
        subst hsplit
        obtain ⟨Sc2, hSc2⟩ := dfs_head hdc
        subst hSc2
        rw [List.length_cons] at hdc
        obtain ⟨cnd, lc2, hgc, hdc2, hlc⟩ := dfs_cons hdc
        have hlc2 : Sc2 = lc2 := by
          have := hlc
          simp at this
          exact this
        subst hlc2
        rw [List.append_nil] at hdc2
        have hmemc : c ∈ (c :: Sc2) ++ Srest := List.mem_append_left _ (List.mem_cons_self c Sc2)
        have hgc2 : h[c]? = some cnd := by
          rw [← List.get?_eq_getElem?]
          exact hgc
        have hbadsplit : hasBadPubB h (c :: Sc2) = true ∨ hasBadPubB h Srest = true := by
          rw [hasBadPubB, List.any_eq_true] at hbad
          obtain ⟨j, hj, hpj⟩ := hbad
          rcases List.mem_append.mp hj with hm | hm
          · left
            rw [hasBadPubB, List.any_eq_true]
            exact ⟨j, hm, hpj⟩
          · right
            rw [hasBadPubB, List.any_eq_true]
            exact ⟨j, hm, hpj⟩
        have htlc : termLeavesB h (c :: Sc2) = true :=
          termLeavesB_sub (fun j hj => List.mem_append_left _ hj) htl
        have htlrest : termLeavesB h Srest = true :=
          termLeavesB_sub (fun j hj => List.mem_append_right _ hj) htl
        by_cases hco : cnd.operator = true
        · rcases hbadsplit with hbc | hbr
          · have hsub : pubmedAux h fuel (SerCall.node c) = none := by
              refine ih.1 c (c :: Sc2) ?_ htlc ?_ hbc
              · rw [List.length_cons]
                simp only [dfs, hgc, hdc2, List.append_nil, Option.map_some']
              · rw [isOpAtB, hgc]
                exact hco
            simp [pubmedAux, hgc2, hco, hsub]
          · have htail : pubmedAux h fuel (SerCall.kids pv false rest) = none :=
              ih.2 pv false rest Srest hdrest htlrest hbr
            cases hsub : pubmedAux h fuel (SerCall.node c) with
            | none => simp [pubmedAux, hgc2, hco, hsub]
            | some s => simp [pubmedAux, hgc2, hco, hsub, htail]
        · have hcof : cnd.operator = false := by
            cases hx : cnd.operator
            · rfl
            · exact absurd hx hco
          have hchempty : cnd.children = [] := by
            rw [termLeavesB, List.all_eq_true] at htl
            have := htl c hmemc
            rw [hgc] at this
            simp [hcof] at this
            exact this
          have hSc1 : Sc2 = [] := by
            rw [hchempty] at hdc2
            rw [dfs_nil] at hdc2
            exact (Option.some.inj hdc2).symm
          subst hSc1
          rcases hbadsplit with hbc | hbr
          · have hlook : get_search_field_pubmed cnd.search_field = none := by
              rw [hasBadPubB, List.any_eq_true] at hbc
              obtain ⟨j, hj, hpj⟩ := hbc
              have hjc : j = c := by
                rcases List.mem_cons.mp hj with he | hm
                · exact he
                · exact absurd hm (List.not_mem_nil j)
              subst hjc
              rw [hgc] at hpj
              simp [hcof] at hpj
              exact hpj
            simp [pubmedAux, hgc2, hcof, hlook]
          · cases hlook : get_search_field_pubmed cnd.search_field with
            | none =>
              simp [pubmedAux, hgc2, hcof, hlook]
            | some fc =>
              have htail : pubmedAux h fuel (SerCall.kids pv false rest) = none :=
                ih.2 pv false rest Srest hdrest htlrest hbr
              simp [pubmedAux, hgc2, hcof, hlook, htail]

theorem wos_bad_none_aux {h : List Node} :
    ∀ (fuel : Nat),
      (∀ (r : Nat) (S : List Nat), dfs h S.length [r] = some S →
        termLeavesB h S = true → isOpAtB h r = true → hasBadWosB h S = true →
        wosAux h fuel (SerCall.node r) = none) ∧
      (∀ (pv : String) (first : Bool) (cs : List Nat) (S : List Nat),
        dfs h S.length cs = some S → termLeavesB h S = true →
        ((first = true ∧ headBadWosB h cs = true) ∨ hasBadWosB h S = true) →
        wosAux h fuel (SerCall.kids pv first cs) = none) := by
  intro fuel
  induction fuel with
  | zero => exact ⟨fun _ _ _ _ _ _ => rfl, fun _ _ _ _ _ _ _ => rfl⟩
  | succ fuel ih =>
    constructor
    · intro r S hd htl hop hbad
      obtain ⟨S2, hS2⟩ := dfs_head hd
      subst hS2
      rw [List.length_cons] at hd
      obtain ⟨nd, l2, hg, hd2, hl⟩ := dfs_cons hd
      have hl2 : S2 = l2 := by
        have := hl
        simp at this
        exact this
      subst hl2
      rw [List.append_nil] at hd2
      have hndop : nd.operator = true := by
        rw [isOpAtB, hg] at hop
        exact hop
      have htl2 : termLeavesB h S2 = true :=
        termLeavesB_sub (fun j hj => List.mem_cons_of_mem r hj) htl
      have hbad2 : (True ∧ headBadWosB h nd.children = true) ∨ hasBadWosB h S2 = true := by
        rw [hasBadWosB, List.any_eq_true] at hbad
        obtain ⟨p, hp, hpp⟩ := hbad
        rcases List.mem_cons.mp hp with he | hm
        · subst he
          rw [hg] at hpp
          simp [hndop] at hpp
          exact Or.inl ⟨trivial, hpp⟩
        · refine Or.inr ?_
          rw [hasBadWosB, List.any_eq_true]
          exact ⟨p, hm, hpp⟩
      rw [show wosAux h (fuel + 1) (SerCall.node r) =
          wosAux h fuel (SerCall.kids nd.value true nd.children) by
        simp only [wosAux, hg]]
      rcases hbad2 with ⟨_, hhb⟩ | hbb
      · exact ih.2 nd.value true nd.children S2 hd2 htl2 (Or.inl ⟨rfl, hhb⟩)
      · exact ih.2 nd.value true nd.children S2 hd2 htl2 (Or.inr hbb)
    · intro pv first cs S hd htl hbad
      cases cs with
      | nil =>
        rw [dfs_nil] at hd
        cases hd
        rcases hbad with ⟨_, hhb⟩ | hbb
        · rw [headBadWosB] at hhb
          exact Bool.noConfusion hhb
        · rw [hasBadWosB] at hbb
          simp at hbb
      | cons c rest =>
        rw [show (c :: rest : List Nat) = [c] ++ rest from rfl] at hd
        obtain ⟨Sc, Srest, hsplit, hdc, hdrest⟩ := dfs_decompose hd
        subst hsplit
        obtain ⟨Sc2, hSc2⟩ := dfs_head hdc
        subst hSc2
        rw [List.length_cons] at hdc
        obtain ⟨cnd, lc2, hgc, hdc2, hlc⟩ := dfs_cons hdc
        have hlc2 : Sc2 = lc2 := by
          have := hlc
          simp at this
          exact this
        subst hlc2
        rw [List.append_nil] at hdc2
        have hgc2 : h[c]? = some cnd := by
          rw [← List.get?_eq_getElem?]
          exact hgc
        have hmemc : c ∈ (c :: Sc2) ++ Srest := List.mem_append_left _ (List.mem_cons_self c Sc2)
        have htlc : termLeavesB h (c :: Sc2) = true :=
          termLeavesB_sub (fun j hj => List.mem_append_left _ hj) htl
        have htlrest : termLeavesB h Srest = true :=
          termLeavesB_sub (fun j hj => List.mem_append_right _ hj) htl
        rcases hbad with ⟨hfirst, hhb⟩ | hbb
        · subst hfirst
          rw [headBadWosB] at hhb
          simp only [Bool.and_eq_true] at hhb
          obtain ⟨hrne, hbt⟩ := hhb
          rw [badWosTermB, hgc] at hbt
          simp only [Bool.and_eq_true] at hbt
          obtain ⟨hcoff, hlookn⟩ := hbt
          have hco : cnd.operator = false := by
            cases hx : cnd.operator
            · rfl
            · rw [hx] at hcoff; exact Bool.noConfusion hcoff
          have hlook : get_search_field_wos cnd.search_field = none :=
            Option.isNone_iff_eq_none.mp hlookn
          have hrne2 : rest.isEmpty = false := by
            cases hx : rest.isEmpty
            · rfl
            · rw [hx] at hrne; exact Bool.noConfusion hrne
          simp [wosAux, hgc2, hco, hrne2, hlook]
        · have hbadsplit : hasBadWosB h (c :: Sc2) = true ∨ hasBadWosB h Srest = true := by
            rw [hasBadWosB, List.any_eq_true] at hbb
            obtain ⟨j, hj, hpj⟩ := hbb
            rcases List.mem_append.mp hj with hm | hm
            · left
              rw [hasBadWosB, List.any_eq_true]
              exact ⟨j, hm, hpj⟩
            · right
              rw [hasBadWosB, List.any_eq_true]
              exact ⟨j, hm, hpj⟩
          by_cases hco : cnd.operator = true
          · rcases hbadsplit with hbc | hbr
            · have hsub : wosAux h fuel (SerCall.node c) = none := by
                refine ih.1 c (c :: Sc2) ?_ htlc ?_ hbc
                · rw [List.length_cons]
                  simp only [dfs, hgc, hdc2, List.append_nil, Option.map_some']
                · rw [isOpAtB, hgc]
                  exact hco
              simp [wosAux, hgc2, hco, hsub]
            · have htail : wosAux h fuel (SerCall.kids pv false rest) = none :=
                ih.2 pv false rest Srest hdrest htlrest (Or.inr hbr)
              cases hsub : wosAux h fuel (SerCall.node c) with
              | none => simp [wosAux, hgc2, hco, hsub]
              | some s => simp [wosAux, hgc2, hco, hsub, htail]
          · have hcof : cnd.operator = false := by
              cases hx : cnd.operator
              · rfl
              · exact absurd hx hco
            have hchempty : cnd.children = [] := by
              rw [termLeavesB, List.all_eq_true] at htl
              have := htl c hmemc
              rw [hgc] at this
              simp [hcof] at this
              exact this
            have hSc1 : Sc2 = [] := by
              rw [hchempty] at hdc2
              rw [dfs_nil] at hdc2
              exact (Option.some.inj hdc2).symm
            subst hSc1
            have hbr : hasBadWosB h Srest = true := by
              rcases hbadsplit with hbc | hbr2
              · exfalso
                rw [hasBadWosB, List.any_eq_true] at hbc
                obtain ⟨j, hj, hpj⟩ := hbc
                have hjc : j = c := by
                  rcases List.mem_cons.mp hj with he | hm
                  · exact he
                  · exact absurd hm (List.not_mem_nil j)
                subst hjc
                rw [hgc] at hpj
                simp [hcof] at hpj
              · exact hbr2
            have htail : wosAux h fuel (SerCall.kids pv false rest) = none :=
              ih.2 pv false rest Srest hdrest htlrest (Or.inr hbr)
            by_cases hfi : (first && !rest.isEmpty) = true
            · cases hlook : get_search_field_wos cnd.search_field with
              | none => simp [wosAux, hgc2, hcof, hfi, hlook]
              | some fc => simp [wosAux, hgc2, hcof, hfi, hlook, htail]
            · have hfi2 : (first && !rest.isEmpty) = false := by
                cases hx : (first && !rest.isEmpty)
                · rfl
                · exact absurd hx hfi
              simp [wosAux, hgc2, hcof, hfi2, htail]

theorem wos_good_some_aux {h : List Node} :
    ∀ (fuel : Nat),
      (∀ (r : Nat) (S : List Nat), dfs h S.length [r] = some S →
        termLeavesB h S = true → hasBadWosB h S = false →
        2 * S.length + 1 ≤ fuel →
        (wosAux h fuel (SerCall.node r)).isSome = true) ∧
      (∀ (pv : String) (first : Bool) (cs : List Nat) (S : List Nat),
        dfs h S.length cs = some S → termLeavesB h S = true →
        hasBadWosB h S = false →
        (first = true → headBadWosB h cs = false) →
        2 * S.length + 2 ≤ fuel →
        (wosAux h fuel (SerCall.kids pv first cs)).isSome = true) := by
  intro fuel
  induction fuel with
  | zero =>
    exact ⟨fun _ _ _ _ _ hle => absurd hle (by omega),
      fun _ _ _ _ _ _ _ _ hle => absurd hle (by omega)⟩
  | succ fuel ih =>
    constructor
    · intro r S hd htl hgood hle
      obtain ⟨S2, hS2⟩ := dfs_head hd
      subst hS2
      rw [List.length_cons] at hd
      obtain ⟨nd, l2, hg, hd2, hl⟩ := dfs_cons hd
      have hl2 : S2 = l2 := by
        have := hl
        simp at this
        exact this
      subst hl2
      rw [List.append_nil] at hd2
      have hgoodall : ∀ p ∈ r :: S2, (match h.get? p with
          | some pnd => pnd.operator && headBadWosB h pnd.children
          | none => false) = false := by
        rw [hasBadWosB, List.any_eq_false] at hgood
        intro p hp
        have := hgood p hp
        simpa using this
      have hgood2 : hasBadWosB h S2 = false := by
        rw [hasBadWosB, List.any_eq_false]
        intro p hp
        have := hgoodall p (List.mem_cons_of_mem r hp)
        simpa using this
      have htl2 : termLeavesB h S2 = true :=
        termLeavesB_sub (fun j hj => List.mem_cons_of_mem r hj) htl
      have hhead : headBadWosB h nd.children = false := by
        cases hop : nd.operator with
        | true =>
          have h2 := hgoodall r (List.mem_cons_self r S2)
          simp only [hg] at h2
          rw [hop] at h2
          simpa using h2
        | false =>
          have hch : nd.children = [] := by
            rw [termLeavesB, List.all_eq_true] at htl
            have := htl r (List.mem_cons_self r S2)
            rw [hg] at this
            simp [hop] at this
            exact this
          rw [hch]
          rfl
      rw [show wosAux h (fuel + 1) (SerCall.node r) =
          wosAux h fuel (SerCall.kids nd.value true nd.children) by
        simp only [wosAux, hg]]
      exact ih.2 nd.value true nd.children S2 hd2 htl2 hgood2
        (fun _ => hhead) (by simp at hle; omega)
    · intro pv first cs S hd htl hgood hfb hle
      cases cs with
      | nil =>
        rw [dfs_nil] at hd
        cases hd
        rfl
      | cons c rest =>
        rw [show (c :: rest : List Nat) = [c] ++ rest from rfl] at hd
        obtain ⟨Sc, Srest, hsplit, hdc, hdrest⟩ := dfs_decompose hd
        subst hsplit
        obtain ⟨Sc2, hSc2⟩ := dfs_head hdc
        subst hSc2
        rw [List.length_cons] at hdc
        obtain ⟨cnd, lc2, hgc, hdc2, hlc⟩ := dfs_cons hdc
        have hlc2 : Sc2 = lc2 := by
          have := hlc
          simp at this
          exact this
        subst hlc2
        rw [List.append_nil] at hdc2
        have hgc2 : h[c]? = some cnd := by
          rw [← List.get?_eq_getElem?]
          exact hgc
        have hmemc : c ∈ (c :: Sc2) ++ Srest :=
          List.mem_append_left _ (List.mem_cons_self c Sc2)
        have htlc : termLeavesB h (c :: Sc2) = true :=
          termLeavesB_sub (fun j hj => List.mem_append_left _ hj) htl
        have htlrest : termLeavesB h Srest = true :=
          termLeavesB_sub (fun j hj => List.mem_append_right _ hj) htl
        have hgoodc : hasBadWosB h (c :: Sc2) = false := by
          rw [hasBadWosB, List.any_eq_false] at hgood ⊢
          intro p hp
          exact hgood p (List.mem_append_left _ hp)
        have hgoodrest : hasBadWosB h Srest = false := by
          rw [hasBadWosB, List.any_eq_false] at hgood ⊢
          intro p hp
          exact hgood p (List.mem_append_right _ hp)
        have hlen : ((c :: Sc2) ++ Srest).length = Sc2.length + Srest.length + 1 := by
          rw [List.length_append, List.length_cons]
          omega
        have htail : (wosAux h fuel (SerCall.kids pv false rest)).isSome = true := by
          refine ih.2 pv false rest Srest hdrest htlrest hgoodrest
            (fun hff => Bool.noConfusion hff) ?_
          rw [hlen] at hle
          omega
        obtain ⟨tl, htl2⟩ := Option.isSome_iff_exists.mp htail
        by_cases hco : cnd.operator = true
        · have hsub : (wosAux h fuel (SerCall.node c)).isSome = true := by
            refine ih.1 c (c :: Sc2) ?_ htlc hgoodc ?_
            · rw [List.length_cons]
              simp only [dfs, hgc, hdc2, List.append_nil, Option.map_some']
            · rw [hlen] at hle
              rw [List.length_cons]
              omega
          obtain ⟨sub, hsub2⟩ := Option.isSome_iff_exists.mp hsub
          simp [wosAux, hgc2, hco, hsub2, htl2]
        · have hcof : cnd.operator = false := by
            cases hx : cnd.operator
            · rfl
            · exact absurd hx hco
          by_cases hfi : (first && !rest.isEmpty) = true
          · have hfirst : first = true := by
              cases hx : first
              · rw [hx] at hfi
                exact Bool.noConfusion hfi
              · rfl
            have hrne : rest.isEmpty = false := by
              cases hx : rest.isEmpty
              · rfl
              · rw [hfirst, hx] at hfi
                exact Bool.noConfusion hfi
            have hhb := hfb hfirst
            rw [headBadWosB, hrne] at hhb
            simp only [Bool.not_false, Bool.true_and] at hhb
            rw [badWosTermB] at hhb
            simp only [hgc] at hhb
            rw [hcof] at hhb
            simp only [Bool.not_false, Bool.true_and] at hhb
            obtain ⟨fc, hlook⟩ : ∃ fc, get_search_field_wos cnd.search_field = some fc := by
              cases hx : get_search_field_wos cnd.search_field with
              | none =>
                rw [hx] at hhb
                exact absurd hhb (by simp)
              | some fc => exact ⟨fc, rfl⟩
            simp [wosAux, hgc2, hcof, hfi, hlook, htl2]
          · have hfi2 : (first && !rest.isEmpty) = false := by
              cases hx : (first && !rest.isEmpty)
              · rfl
              · exact absurd hx hfi
            simp [wosAux, hgc2, hcof, hfi2, htl2]

/-- C2 counterexample: the concrete query of the claim — AND over the term
`cancer` (field Abstract) and a nested OR over `lung`, `breast` (field
Title) — does not serialize to the claimed WoS string: the code never
closes the first field group before the operator branch and emits the
nested OR's two terms under a single `TI=(…)` group. -/
theorem claim_C2_counterexample :
    (do
      let (q, h) ← mkQuery "OR" ["lung", "breast"] [] "Title" []
      let (p, h2) ← mkQuery "AND" ["cancer"] [q] "Abstract" h
      print_query_wos h2 p.root) ≠
      some "AB=(cancer) AND (TI=(lung) OR TI=(breast))" := by
  decide

/-- C2 (amended): for the query constructed as AND with
`search_terms=["cancer"]`, `search_field="Abstract"` and one nested OR
query with `search_terms=["lung","breast"]`, `search_field="Title"`,
serialization with syntax `wos` returns exactly the string
`AB=(cancer AND TI=(lung OR breast))`. -/
theorem claim_C2_amended :
    (do
      let (q, h) ← mkQuery "OR" ["lung", "breast"] [] "Title" []
      let (p, h2) ← mkQuery "AND" ["cancer"] [q] "Abstract" h
      print_query_wos h2 p.root) =
      some "AB=(cancer AND TI=(lung OR breast))" := by
  decide

/-- C3: evaluating the code at the failing input of the claim — the query
constructed as AND with the single search term `covid`, search field
`Title` and no nested queries — PubMed serialization returns the string
` AND covid[ti])` (leading space, stray operator, unbalanced closing
parenthesis), not the claimed `covid[ti]`: a single child is not
`children[0] and not children[-1]`, so it falls into the "not first
child" branch that prepends the operator, and the unconditional last-child
branch appends a `)` that was never opened. -/
theorem claim_C3_code_output :
    (do
      let (q, h) ← mkQuery "AND" ["covid"] [] "Title" []
      print_query_pubmed h q.root) = some " AND covid[ti])" := by
  decide

/-- C5 counterexample: a tree containing a term node whose search field is
in neither vendor table (`BadField`) — the single term of an AND query —
serializes with syntax `wos` without any error, returning the string
` AND a)`: the WoS field lookup only happens for a term child that is
first but not last, so an only child's field is never looked up. -/
theorem claim_C5_counterexample :
    (do
      let (q, h) ← mkQuery "AND" ["a"] [] "BadField" []
      print_query_wos h q.root) = some " AND a)" := by
  decide

/-- C5 (amended): for every well-formed query tree — an operator root
whose pre-order id list `S` is duplicate-free (so children are pairwise
distinct objects and the positional first/last tests coincide with the
Python identity tests), term nodes being leaves — PubMed serialization
aborts (returns `none`, no partial string) whenever the tree contains a
term node whose search field is not in the PubMed table; and WoS
serialization aborts if and only if some operator node of the tree has a
first-but-not-last term child whose search field is not in the WoS table
(the only position in which `_print_query_wos` performs the lookup) — so
a WoS-unmapped term in last-or-only position alone never aborts. -/
theorem claim_C5_amended :
    (∀ (h : List Node) (r : Nat) (S : List Nat),
      dfs h S.length [r] = some S → S.Nodup → termLeavesB h S = true →
      isOpAtB h r = true → hasBadPubB h S = true → print_query_pubmed h r = none) ∧
    (∀ (h : List Node) (r : Nat) (S : List Nat),
      dfs h S.length [r] = some S → S.Nodup → termLeavesB h S = true →
      isOpAtB h r = true →
      (print_query_wos h r = none ↔ hasBadWosB h S = true)) := by
  constructor
  · intro h r S hd hnd htl hop hbad
    exact (pubmed_bad_none_aux (serFuel h)).1 r S hd htl hop hbad
  · intro h r S hd hnd htl hop
    constructor
    · intro hnone
      by_contra hnb
      have hbf : hasBadWosB h S = false := by
        cases hx : hasBadWosB h S
        · rfl
        · exact absurd hx hnb
      have hSle : S.length ≤ h.length :=
        nodup_length_le hnd (dfs_mem_lt hd)
      have hsome := (wos_good_some_aux (serFuel h)).1 r S hd htl hbf
        (by rw [serFuel]; omega)
      rw [print_query_wos] at hnone
      rw [hnone] at hsome
      simp at hsome
    · intro hbad
      exact (wos_bad_none_aux (serFuel h)).1 r S hd htl hop hbad

/-- C5 witness: the amended theorem applied to a concrete tree — an AND
root over two terms with the unmapped field `Bad` — discharging every
hypothesis, duplicate-freeness included, by computation. -/
theorem claim_C5_amended_witness :
    (dfs [⟨"AND", true, "Bad", [1, 2], false⟩, ⟨"x", false, "Bad", [], false⟩,
        ⟨"y", false, "Bad", [], false⟩] ([0, 1, 2] : List Nat).length [0] = some [0, 1, 2] ∧
      ([0, 1, 2] : List Nat).Nodup ∧
      termLeavesB [⟨"AND", true, "Bad", [1, 2], false⟩, ⟨"x", false, "Bad", [], false⟩,
        ⟨"y", false, "Bad", [], false⟩] [0, 1, 2] = true) ∧
    print_query_pubmed [⟨"AND", true, "Bad", [1, 2], false⟩, ⟨"x", false, "Bad", [], false⟩,
      ⟨"y", false, "Bad", [], false⟩] 0 = none ∧
    print_query_wos [⟨"AND", true, "Bad", [1, 2], false⟩, ⟨"x", false, "Bad", [], false⟩,
      ⟨"y", false, "Bad", [], false⟩] 0 = none := by
  refine ⟨⟨by decide, by decide, by decide⟩, ?_, ?_⟩
  · exact claim_C5_amended.1 _ 0 [0, 1, 2] (by decide) (by decide) (by decide) (by decide)
      (by decide)
  · exact (claim_C5_amended.2 _ 0 [0, 1, 2] (by decide) (by decide) (by decide)
      (by decide)).mpr (by decide)

/-- C4: for every pair of the six token categories, `validate_token_position`
emits exactly one message, of level Error, precisely when the current
category is not in the previous category's allowed-successor set of the
fixed transition table as the spec states it; and with no previous
category (the first token) it emits no message, whatever the position. -/
theorem claim_C4_token_transitions :
    (∀ prev ∈ tokenCategories, ∀ cur ∈ tokenCategories, ∀ pos : Option (Nat × Nat),
      ((validate_token_position cur (some prev) pos).length = 1 ∧
          ∀ m ∈ validate_token_position cur (some prev) pos, m.level = "Error") ↔
        cur ∉ claimAllowed prev) ∧
    (∀ (cur : String) (pos : Option (Nat × Nat)), validate_token_position cur none pos = []) := by
  constructor
  · intro prev hp cur hc pos
    fin_cases hp <;> fin_cases hc <;>
      simp [validate_token_position, valid_transitions, claimAllowed, mkSeqMsg]
  · intro cur pos
    rfl

/-- C4 witness: the theorem applied to the concrete pair
(LOGIC_OPERATOR after LOGIC_OPERATOR), which the table rejects, and to a
first token. -/
theorem claim_C4_token_transitions_witness :
    (((validate_token_position "LOGIC_OPERATOR" (some "LOGIC_OPERATOR") (some (3, 5))).length = 1 ∧
        ∀ m ∈ validate_token_position "LOGIC_OPERATOR" (some "LOGIC_OPERATOR") (some (3, 5)),
          m.level = "Error") ↔
      "LOGIC_OPERATOR" ∉ claimAllowed "LOGIC_OPERATOR") ∧
    validate_token_position "SEARCH_TERM" none (some (0, 2)) = [] := by
  exact ⟨claim_C4_token_transitions.1 "LOGIC_OPERATOR" (by decide) "LOGIC_OPERATOR" (by decide)
    (some (3, 5)), claim_C4_token_transitions.2 "SEARCH_TERM" (some (0, 2))⟩

/-! ## Character lemmas -/

theorem char_toNat_ofNat {n : Nat} (h : n < 55296) : (Char.ofNat n).toNat = n := by
  rw [Char.ofNat, dif_pos (Or.inl h : n.isValidChar)]
  rfl

theorem char_toNat_lt (c : Char) : c.toNat < 1114112 := by
  have h := c.val.toNat_lt_size
  have : UInt32.size = 4294967296 := rfl
  rcases c.valid with hv | hv
  · exact Nat.lt_trans hv (by norm_num)
  · exact hv.2

theorem toNat_low (c : Char) :
    (low c).toNat = if 65 ≤ c.toNat ∧ c.toNat ≤ 90 then c.toNat + 32 else c.toNat := by
  unfold low
  split
  · rename_i h
    rw [char_toNat_ofNat (by omega)]
  · rfl

theorem toNat_up (c : Char) :
    (up c).toNat = if 97 ≤ c.toNat ∧ c.toNat ≤ 122 then c.toNat - 32 else c.toNat := by
  unfold up
  split
  · rename_i h
    rw [char_toNat_ofNat (by omega)]
  · rfl

theorem char_eq_of_toNat {a b : Char} (h : a.toNat = b.toNat) : a = b :=
  Char.ext (UInt32.toNat.inj h)

theorem low_up (c : Char) : low (up c) = low c := by
  apply char_eq_of_toNat
  rw [toNat_low, toNat_low, toNat_up]
  split_ifs <;> omega

theorem up_up (c : Char) : up (up c) = up c := by
  apply char_eq_of_toNat
  rw [toNat_up, toNat_up]
  split_ifs <;> omega

theorem isWordChar_of_low {a b : Char} (h : low a = low b) : isWordChar a = isWordChar b := by
  have hn : (low a).toNat = (low b).toNat := by rw [h]
  rw [toNat_low, toNat_low] at hn
  unfold isWordChar
  rw [Bool.eq_iff_iff]
  simp only [Bool.or_eq_true, Bool.and_eq_true, decide_eq_true_eq, beq_iff_eq]
  split_ifs at hn <;> omega

/-! ## Scanner and replacement lemmas -/

theorem replaceSpan_length {s repl : List Char} {a : Nat}
    (hb : a + repl.length ≤ s.length) : (replaceSpan s a repl).length = s.length := by
  unfold replaceSpan
  simp only [List.length_append, List.length_take, List.length_drop]
  omega

theorem replaceSpan_get {s repl : List Char} {a : Nat}
    (hb : a + repl.length ≤ s.length) (j : Nat) :
    (replaceSpan s a repl).get? j =
      if a ≤ j ∧ j < a + repl.length then repl.get? (j - a) else s.get? j := by
  unfold replaceSpan
  have hta : (s.take a).length = a := by
    rw [List.length_take]
    omega
  have htr : (s.take a ++ repl).length = a + repl.length := by
    rw [List.length_append, hta]
  by_cases h1 : j < a
  · rw [List.get?_append (by omega), List.get?_append (by omega), List.get?_take h1,
      if_neg (by omega)]
  · by_cases h2 : j < a + repl.length
    · rw [List.get?_append (by omega), List.get?_append_right (by omega), hta,
        if_pos ⟨by omega, h2⟩]
    · rw [List.get?_append_right (by omega), htr, if_neg (by omega), List.get?_drop]
      congr 1
      omega

theorem tryKw_some {kw s m r : List Char} (h : tryKw kw s = some (m, r)) :
    m = s.take kw.length ∧ r = s.drop kw.length ∧ m.map low = kw ∧
      boundaryOk r = true ∧ m.length = kw.length := by
  unfold tryKw at h
  split at h
  · rename_i hc
    obtain ⟨hm, hr⟩ : s.take kw.length = m ∧ s.drop kw.length = r := by
      constructor <;> [exact congrArg Prod.fst (Option.some.inj h);
        exact congrArg Prod.snd (Option.some.inj h)]
    subst hm
    subst hr
    refine ⟨rfl, rfl, hc.1, hc.2, ?_⟩
    have := congrArg List.length hc.1
    simpa using this
  · exact Option.noConfusion h

theorem tryKws_some {s m r : List Char} (h : tryKws s = some (m, r)) :
    ∃ kw, (kw = kwAnd ∨ kw = kwOr ∨ kw = kwNot) ∧ tryKw kw s = some (m, r) := by
  unfold tryKws at h
  cases h1 : tryKw kwAnd s with
  | some x =>
    simp only [h1] at h
    exact ⟨kwAnd, Or.inl rfl, by rw [h1]; exact h⟩
  | none =>
    simp only [h1] at h
    cases h2 : tryKw kwOr s with
    | some x =>
      simp only [h2] at h
      exact ⟨kwOr, Or.inr (Or.inl rfl), by rw [h2]; exact h⟩
    | none =>
      simp only [h2] at h
      exact ⟨kwNot, Or.inr (Or.inr rfl), h⟩

theorem drop_head_lt {s : List Char} {i : Nat} {c : Char} {rest : List Char}
    (hdrop : s.drop i = c :: rest) : i < s.length := by
  by_contra hlt
  rw [List.drop_eq_nil_of_le (Nat.le_of_not_lt hlt)] at hdrop
  exact List.noConfusion hdrop

theorem drop_succ_of_drop {s : List Char} {i : Nat} {c : Char} {rest : List Char}
    (hdrop : s.drop i = c :: rest) : s.drop (i + 1) = rest := by
  rw [← List.drop_drop 1 i s, hdrop]
  rfl

theorem matchesOk_mono {s : List Char} {l : List (Nat × Nat × List Char)} :
    ∀ {i1 i2 : Nat}, i1 ≤ i2 → MatchesOk s i2 l → MatchesOk s i1 l := by
  intro i1 i2 hle hm
  cases l with
  | nil => trivial
  | cons x tl =>
    obtain ⟨a, e, m⟩ := x
    obtain ⟨h1, h2⟩ := hm
    exact ⟨by omega, h2⟩

theorem scanOps_matchesOk {s : List Char} :
    ∀ (fuel : Nat) (pw : Bool) (i : Nat), i ≤ s.length →
      MatchesOk s i (scanOps fuel pw i (s.drop i)) := by
  intro fuel
  induction fuel with
  | zero =>
    intro pw i _
    cases hdrop : s.drop i <;> simp [scanOps, MatchesOk]
  | succ fuel ih =>
    intro pw i hi
    cases hdrop : s.drop i with
    | nil => simp [scanOps, MatchesOk]
    | cons c rest =>
      have hil : i < s.length := drop_head_lt hdrop
      cases hpw : pw with
      | true =>
        have hres : scanOps (fuel + 1) true i (c :: rest) =
            scanOps fuel (isWordChar c) (i + 1) rest := by
          simp [scanOps]
        rw [hres]
        have := ih (isWordChar c) (i + 1) (by omega)
        rw [drop_succ_of_drop hdrop] at this
        exact matchesOk_mono (by omega) this
      | false =>
        cases hma : tryKws (c :: rest) with
        | none =>
          have hres : scanOps (fuel + 1) false i (c :: rest) =
              scanOps fuel (isWordChar c) (i + 1) rest := by
            simp [scanOps, hma]
          rw [hres]
          have := ih (isWordChar c) (i + 1) (by omega)
          rw [drop_succ_of_drop hdrop] at this
          exact matchesOk_mono (by omega) this
        | some mr =>
          obtain ⟨m, r2⟩ := mr
          have hres : scanOps (fuel + 1) false i (c :: rest) =
              (i, i + m.length, m) :: scanOps fuel true (i + m.length) r2 := by
            simp [scanOps, hma]
          rw [hres]
          obtain ⟨kw, hkwmem, hkw⟩ := tryKws_some hma
          obtain ⟨hm, hr, hmap, hbnd, hml⟩ := tryKw_some hkw
          have hkwpos : 0 < kw.length := by
            rcases hkwmem with he | he | he <;> subst he <;> decide
          have hmlen : m.length ≤ (c :: rest).length := by
            rw [hm, List.length_take]
            omega
          have hrest_len : (c :: rest).length = s.length - i := by
            rw [← hdrop, List.length_drop]
          show MatchesOk s i ((i, i + m.length, m) :: scanOps fuel true (i + m.length) r2)
          have hr2 : s.drop (i + m.length) = r2 := by
            rw [hr, ← hdrop, List.drop_drop, hml]
          refine ⟨Nat.le_refl i, rfl, by omega, by omega, ?_, ?_⟩
          · intro k hk
            rw [hm, List.get?_take (by omega), ← hdrop, List.get?_drop]
          · have := ih true (i + m.length) (by omega)
            rw [hr2] at this
            exact this

theorem tryField_some {s m r : List Char} (h : tryField s = some (m, r)) :
    ∃ a b rest, s = a :: b :: rest ∧ m = [a, b] ∧ r = rest ∧
      (isUpperL a && isUpperL b && boundaryOk rest &&
        !orMatch (a :: b :: rest) && !sdMatch (a :: b :: rest)) = true := by
  cases s with
  | nil => exact Option.noConfusion h
  | cons a tail =>
    cases tail with
    | nil => exact Option.noConfusion h
    | cons b rest =>
      simp only [tryField] at h
      split at h
      · rename_i hc
        refine ⟨a, b, rest, rfl, ?_, ?_, hc⟩
        · exact (congrArg Prod.fst (Option.some.inj h)).symm
        · exact (congrArg Prod.snd (Option.some.inj h)).symm
      · exact Option.noConfusion h

theorem scanFields_matchesOk {s : List Char} :
    ∀ (fuel : Nat) (pw : Bool) (i : Nat), i ≤ s.length →
      MatchesOk s i (scanFields fuel pw i (s.drop i)) := by
  intro fuel
  induction fuel with
  | zero =>
    intro pw i _
    cases hdrop : s.drop i <;> simp [scanFields, MatchesOk]
  | succ fuel ih =>
    intro pw i hi
    cases hdrop : s.drop i with
    | nil => simp [scanFields, MatchesOk]
    | cons c rest =>
      have hil : i < s.length := drop_head_lt hdrop
      cases hpw : pw with
      | true =>
        have hres : scanFields (fuel + 1) true i (c :: rest) =
            scanFields fuel (isWordChar c) (i + 1) rest := by
          simp [scanFields]
        rw [hres]
        have := ih (isWordChar c) (i + 1) (by omega)
        rw [drop_succ_of_drop hdrop] at this
        exact matchesOk_mono (by omega) this
      | false =>
        cases hma : tryField (c :: rest) with
        | none =>
          have hres : scanFields (fuel + 1) false i (c :: rest) =
              scanFields fuel (isWordChar c) (i + 1) rest := by
            simp [scanFields, hma]
          rw [hres]
          have := ih (isWordChar c) (i + 1) (by omega)
          rw [drop_succ_of_drop hdrop] at this
          exact matchesOk_mono (by omega) this
        | some mr =>
          obtain ⟨m, r2⟩ := mr
          have hres : scanFields (fuel + 1) false i (c :: rest) =
              (i, i + m.length, m) :: scanFields fuel true (i + m.length) r2 := by
            simp [scanFields, hma]
          rw [hres]
          obtain ⟨a, b, rest2, hs, hme, hre, _⟩ := tryField_some hma
          have hca : c = a := (List.cons.inj hs).1
          have hrest : rest = b :: rest2 := (List.cons.inj hs).2
          subst hme
          subst hre
          have hd1 : s.drop (i + 1) = b :: r2 := by
            rw [drop_succ_of_drop hdrop, hrest]
          have hd2 : s.drop (i + 2) = r2 := by
            have := drop_succ_of_drop hd1
            rw [show i + 1 + 1 = i + 2 by omega] at this
            exact this
          have hga : s.get? i = some a := by
            have : (s.drop i).get? 0 = s.get? (i + 0) := List.get?_drop s i 0
            rw [hdrop] at this
            rw [hca] at this
            simpa using this.symm
          have hgb : s.get? (i + 1) = some b := by
            have : (s.drop (i + 1)).get? 0 = s.get? (i + 1 + 0) := List.get?_drop s (i + 1) 0
            rw [hd1] at this
            simpa using this.symm
          have hi2 : i + 2 ≤ s.length := by
            have := drop_head_lt hd1
            omega
          refine ⟨Nat.le_refl i, rfl, by simp, by simpa using hi2, ?_, ?_⟩
          · intro k hk
            match k, hk with
            | 0, _ => simpa using hga
            | 1, _ => simpa using hgb
          · have := ih true (i + 2) hi2
            rw [hd2] at this
            simpa using this

theorem matchesOk_mem {s : List Char} :
    ∀ {ms : List (Nat × Nat × List Char)} {i : Nat}, MatchesOk s i ms →
      ∀ x ∈ ms, i ≤ x.1 ∧ x.2.1 = x.1 + x.2.2.length ∧ 0 < x.2.2.length ∧
        x.2.1 ≤ s.length ∧ ∀ k, k < x.2.2.length → s.get? (x.1 + k) = x.2.2.get? k := by
  intro ms
  induction ms with
  | nil =>
    intro i _ x hx
    exact absurd hx (List.not_mem_nil x)
  | cons y tl ih =>
    intro i hm x hx
    obtain ⟨a, e, m⟩ := y
    obtain ⟨h1, h2, h3, h4, h5, h6⟩ := hm
    rcases List.mem_cons.mp hx with he | hmem
    · subst he
      exact ⟨h1, h2, h3, h4, h5⟩
    · have := ih h6 x hmem
      exact ⟨by omega, this.2.1, this.2.2.1, this.2.2.2.1, this.2.2.2.2⟩

theorem coverOps_none_lt {s : List Char} :
    ∀ {ms : List (Nat × Nat × List Char)} {i : Nat}, MatchesOk s i ms →
      ∀ j, j < i → coverOps ms j = none := by
  intro ms
  induction ms with
  | nil => intro i _ j _; rfl
  | cons y tl ih =>
    intro i hm j hj
    obtain ⟨a, e, m⟩ := y
    obtain ⟨h1, h2, h3, h4, h5, h6⟩ := hm
    unfold coverOps
    by_cases hskip : m = m.map up
    · rw [if_pos hskip]
      exact ih h6 j (by omega)
    · rw [if_neg hskip, if_neg (by rintro ⟨hc1, _⟩; omega)]
      exact ih h6 j (by omega)

theorem coverOps_none_outside {j : Nat} :
    ∀ {ms : List (Nat × Nat × List Char)},
      (∀ x ∈ ms, ¬(x.1 ≤ j ∧ j < x.2.1)) → coverOps ms j = none := by
  intro ms
  induction ms with
  | nil => intro _; rfl
  | cons y tl ih =>
    intro hout
    obtain ⟨a, e, m⟩ := y
    unfold coverOps
    have hme : ¬(a ≤ j ∧ j < e) := hout (a, e, m) (List.mem_cons_self _ _)
    by_cases hskip : m = m.map up
    · rw [if_pos hskip]
      exact ih (fun x hx => hout x (List.mem_cons_of_mem _ hx))
    · rw [if_neg hskip, if_neg hme]
      exact ih (fun x hx => hout x (List.mem_cons_of_mem _ hx))

theorem coverOps_cons (a e : Nat) (m : List Char) (tl : List (Nat × Nat × List Char))
    (j : Nat) :
    coverOps ((a, e, m) :: tl) j =
      if m = m.map up then coverOps tl j
      else if a ≤ j ∧ j < e then (m.map up).get? (j - a) else coverOps tl j := rfl

theorem applyOps_msgs :
    ∀ (ms : List (Nat × Nat × List Char)) (t : List Char),
      (applyOps ms t).2 = (ms.filter (fun x => !decide (x.2.2 = x.2.2.map up))).map
        (fun x => mkOpMsg x.2.2 x.1 x.2.1) := by
  intro ms
  induction ms with
  | nil => intro t; rfl
  | cons y tl ih =>
    intro t
    obtain ⟨a, e, m⟩ := y
    by_cases hskip : m = m.map up
    · have hd : decide (m = m.map up) = true := decide_eq_true hskip
      simp only [applyOps, if_pos hskip, List.filter_cons, hd, Bool.not_true,
        Bool.false_eq_true, if_false]
      exact ih t
    · simp only [applyOps, if_neg hskip, List.filter_cons]
      rw [ih]
      simp [hskip]

theorem applyOps_get {s : List Char} :
    ∀ {ms : List (Nat × Nat × List Char)} {i : Nat} (t : List Char),
      MatchesOk s i ms → t.length = s.length →
      (applyOps ms t).1.length = t.length ∧
        ∀ j, (applyOps ms t).1.get? j =
          match coverOps ms j with
          | some c => some c
          | none => t.get? j := by
  intro ms
  induction ms with
  | nil =>
    intro i t _ _
    exact ⟨rfl, fun j => rfl⟩
  | cons y tl ih =>
    intro i t hm htlen
    obtain ⟨a, e, m⟩ := y
    obtain ⟨h1, h2, h3, h4, h5, h6⟩ := hm
    by_cases hskip : m = m.map up
    · have hres : applyOps ((a, e, m) :: tl) t = applyOps tl t := by
        simp only [applyOps, if_pos hskip]
      rw [hres]
      obtain ⟨hlen, hget⟩ := ih t h6 htlen
      refine ⟨hlen, fun j => ?_⟩
      have hcov : coverOps ((a, e, m) :: tl) j = coverOps tl j := by
        simp only [coverOps]
        rw [if_pos hskip]
      rw [hget j, hcov]
    · have hb : a + (m.map up).length ≤ t.length := by
        rw [List.length_map, htlen]
        omega
      have ht2len : (replaceSpan t a (m.map up)).length = t.length := replaceSpan_length hb
      obtain ⟨hlen, hget⟩ := ih (replaceSpan t a (m.map up)) h6 (by rw [ht2len, htlen])
      have hres1 : (applyOps ((a, e, m) :: tl) t).1 =
          (applyOps tl (replaceSpan t a (m.map up))).1 := by
        simp only [applyOps, if_neg hskip]
      rw [hres1]
      refine ⟨by rw [hlen, ht2len], fun j => ?_⟩
      rw [hget j, coverOps_cons, if_neg hskip]
      by_cases hin : a ≤ j ∧ j < e
      · have hnone : coverOps tl j = none := coverOps_none_lt h6 j (by omega)
        obtain ⟨cc, hcc⟩ : ∃ cc, (m.map up).get? (j - a) = some cc :=
          ⟨(m.map up).get ⟨j - a, by rw [List.length_map]; omega⟩,
            List.get?_eq_some.mpr ⟨by rw [List.length_map]; omega, rfl⟩⟩
        rw [if_pos hin]
        simp only [hnone, hcc]
        rw [replaceSpan_get hb j, if_pos ⟨hin.1, by
          rw [List.length_map]
          omega⟩]
        exact hcc
      · rw [if_neg hin]
        have hout : (replaceSpan t a (m.map up)).get? j = t.get? j := by
          rw [replaceSpan_get hb j, if_neg (by
            rw [List.length_map]
            rintro ⟨hc1, hc2⟩
            exact hin ⟨hc1, by omega⟩)]
        cases hc : coverOps tl j with
        | some c => simp only [hc]
        | none => simp only [hc, hout]

theorem coverOps_span {s : List Char} :
    ∀ {ms : List (Nat × Nat × List Char)} {i : Nat}, MatchesOk s i ms →
      ∀ x ∈ ms, ∀ k, k < x.2.2.length →
        (match coverOps ms (x.1 + k) with
          | some c => some c
          | none => s.get? (x.1 + k)) = (x.2.2.map up).get? k := by
  intro ms
  induction ms with
  | nil =>
    intro i _ x hx
    exact absurd hx (List.not_mem_nil x)
  | cons y tl ih =>
    intro i hm x hx k hk
    obtain ⟨xa, xe, xm⟩ := x
    have hk2 : k < xm.length := hk
    obtain ⟨a0, e0, m0⟩ := y
    obtain ⟨h1, h2, h3, h4, h5, h6⟩ := hm
    rcases List.mem_cons.mp hx with he | hmem
    · simp only [Prod.mk.injEq] at he
      obtain ⟨he1, he2, he3⟩ := he
      subst he1
      subst he2
      subst he3
      rw [coverOps_cons]
      by_cases hskip : xm = xm.map up
      · rw [if_pos hskip, coverOps_none_lt h6 (xa + k) (by omega)]
        show s.get? (xa + k) = (xm.map up).get? k
        rw [h5 k hk2, ← hskip]
      · rw [if_neg hskip, if_pos ⟨Nat.le_add_right xa k, by omega⟩]
        have hka : xa + k - xa = k := by omega
        rw [hka]
        obtain ⟨cc, hcc⟩ : ∃ cc, (xm.map up).get? k = some cc :=
          ⟨(xm.map up).get ⟨k, by rw [List.length_map]; omega⟩,
            List.get?_eq_some.mpr ⟨by rw [List.length_map]; omega, rfl⟩⟩
        simp only [hcc]
    · have hxf := matchesOk_mem h6 (xa, xe, xm) hmem
      have hea : e0 ≤ xa := hxf.1
      rw [coverOps_cons]
      by_cases hskip : m0 = m0.map up
      · rw [if_pos hskip]
        exact ih h6 (xa, xe, xm) hmem k hk
      · rw [if_neg hskip, if_neg (by rintro ⟨hc1, hc2⟩; omega)]
        exact ih h6 (xa, xe, xm) hmem k hk

theorem scan_ops_matchesOk (s : List Char) : MatchesOk s 0 (scan_ops s) := by
  have h := scanOps_matchesOk (s := s) s.length false 0 (Nat.zero_le _)
  rw [List.drop_zero] at h
  exact h

/-- C7: running `check_operator` on the query string "cancer and lung"
rewrites the stored string to "cancer AND lung", leaves
`search_field_general` unchanged, and appends exactly one message, the
Warning for the operator text `and` with span `(7, 10)`. -/
theorem claim_C7_check_operator :
    (check_operator ⟨"cancer and lung".toList, []⟩).1.query_str =
        "cancer AND lung".toList ∧
      (check_operator ⟨"cancer and lung".toList, []⟩).1.search_field_general = [] ∧
      (check_operator ⟨"cancer and lung".toList, []⟩).2 =
        [mkOpMsg ['a', 'n', 'd'] 7 10] ∧
      (mkOpMsg ['a', 'n', 'd'] 7 10).level = "Warning" ∧
      (mkOpMsg ['a', 'n', 'd'] 7 10).pos = some (7, 10) :=
  ⟨rfl, rfl, rfl, rfl, rfl⟩

/-- C10: `check_operator` preserves the length of the stored query string,
leaves `search_field_general` unchanged, changes characters only inside the
spans matched by `FAULTY_OPERATOR_REGEX` on the original string, and every
appended message is the Warning of one such match, whose span in the
rewritten string holds exactly the upper-cased operator text. -/
theorem claim_C10_frame (st : VState) :
    (check_operator st).1.query_str.length = st.query_str.length ∧
      (check_operator st).1.search_field_general = st.search_field_general ∧
      (∀ j, (∀ x ∈ scan_ops st.query_str, ¬(x.1 ≤ j ∧ j < x.2.1)) →
        (check_operator st).1.query_str.get? j = st.query_str.get? j) ∧
      ∀ msg ∈ (check_operator st).2, ∃ x ∈ scan_ops st.query_str,
        msg = mkOpMsg x.2.2 x.1 x.2.1 ∧
          ∀ k, k < x.2.2.length →
            (check_operator st).1.query_str.get? (x.1 + k) =
              (x.2.2.map up).get? k := by
  have hmok : MatchesOk st.query_str 0 (scan_ops st.query_str) :=
    scan_ops_matchesOk st.query_str
  obtain ⟨hlen, hget⟩ :=
    applyOps_get (s := st.query_str) st.query_str hmok rfl
  refine ⟨hlen, rfl, ?_, ?_⟩
  · intro j hout
    have hj := hget j
    rw [coverOps_none_outside hout] at hj
    exact hj
  · intro msg hmsg
    have hmsg2 : msg ∈ (applyOps (scan_ops st.query_str) st.query_str).2 := hmsg
    rw [applyOps_msgs] at hmsg2
    obtain ⟨x, hx, hxe⟩ := List.mem_map.mp hmsg2
    have hxmem : x ∈ scan_ops st.query_str := (List.mem_filter.mp hx).1
    refine ⟨x, hxmem, hxe.symm, ?_⟩
    intro k hk
    have hspan := coverOps_span hmok x hxmem k hk
    have hj := hget (x.1 + k)
    show (applyOps (scan_ops st.query_str) st.query_str).1.get? (x.1 + k) =
      (x.2.2.map up).get? k
    rw [hj]
    exact hspan

theorem claim_C10_frame_witness :
    (check_operator ⟨"cancer and lung".toList, []⟩).1.query_str.length =
        ("cancer and lung".toList).length ∧
      (check_operator ⟨"cancer and lung".toList, []⟩).1.query_str.get? 0 =
        ("cancer and lung".toList).get? 0 :=
  ⟨(claim_C10_frame ⟨"cancer and lung".toList, []⟩).1,
    (claim_C10_frame ⟨"cancer and lung".toList, []⟩).2.2.1 0 (by decide)⟩

theorem forall2_mem_left {α β : Type} {R : α → β → Prop} :
    ∀ {as : List α} {bs : List β}, List.Forall₂ R as bs → ∀ a ∈ as, ∃ b ∈ bs, R a b := by
  intro as bs hf
  induction hf with
  | nil => intro a ha; exact absurd ha (List.not_mem_nil a)
  | cons hq hrest ih =>
    intro a ha
    rcases List.mem_cons.mp ha with he | hm
    · subst he
      exact ⟨_, List.mem_cons_self _ _, hq⟩
    · obtain ⟨b, hb, hr⟩ := ih a hm
      exact ⟨b, List.mem_cons_of_mem _ hb, hr⟩

theorem map_up_idem : ∀ l : List Char, (l.map up).map up = l.map up := by
  intro l
  induction l with
  | nil => rfl
  | cons c r ih => simp only [List.map_cons, up_up, ih]

theorem boundaryOk_congr {l t : List Char} (h : l.map low = t.map low) :
    boundaryOk l = boundaryOk t := by
  cases l with
  | nil =>
    cases t with
    | nil => rfl
    | cons c r => simp at h
  | cons c r =>
    cases t with
    | nil => simp at h
    | cons c2 r2 =>
      simp only [List.map_cons, List.cons.injEq] at h
      simp only [boundaryOk, isWordChar_of_low h.1]

theorem tryKw_congr (kw : List Char) {s t : List Char} (H : s.map low = t.map low) :
    (tryKw kw s = none ∧ tryKw kw t = none) ∨
      (tryKw kw s = some (s.take kw.length, s.drop kw.length) ∧
        tryKw kw t = some (t.take kw.length, t.drop kw.length)) := by
  have htk : (s.take kw.length).map low = (t.take kw.length).map low := by
    rw [List.map_take, List.map_take, H]
  have hdr : (s.drop kw.length).map low = (t.drop kw.length).map low := by
    rw [List.map_drop, List.map_drop, H]
  unfold tryKw
  by_cases hcond : (s.take kw.length).map low = kw ∧ boundaryOk (s.drop kw.length) = true
  · have hcond2 : (t.take kw.length).map low = kw ∧ boundaryOk (t.drop kw.length) = true :=
      ⟨by rw [← htk]; exact hcond.1, by rw [← boundaryOk_congr hdr]; exact hcond.2⟩
    rw [if_pos hcond, if_pos hcond2]
    exact Or.inr ⟨rfl, rfl⟩
  · have hcond2 : ¬((t.take kw.length).map low = kw ∧ boundaryOk (t.drop kw.length) = true) := by
      rintro ⟨hc1, hc2⟩
      exact hcond ⟨by rw [htk]; exact hc1, by rw [boundaryOk_congr hdr]; exact hc2⟩
    rw [if_neg hcond, if_neg hcond2]
    exact Or.inl ⟨rfl, rfl⟩

theorem tryKws_congr {s t : List Char} (H : s.map low = t.map low) :
    (tryKws s = none ∧ tryKws t = none) ∨
      ∃ n, tryKws s = some (s.take n, s.drop n) ∧
        tryKws t = some (t.take n, t.drop n) := by
  rcases tryKw_congr kwAnd H with ⟨h1, h2⟩ | ⟨h1, h2⟩
  · rcases tryKw_congr kwOr H with ⟨h3, h4⟩ | ⟨h3, h4⟩
    · rcases tryKw_congr kwNot H with ⟨h5, h6⟩ | ⟨h5, h6⟩
      · exact Or.inl ⟨by simp only [tryKws, h1, h3, h5], by simp only [tryKws, h2, h4, h6]⟩
      · exact Or.inr ⟨kwNot.length, by simp only [tryKws, h1, h3, h5],
          by simp only [tryKws, h2, h4, h6]⟩
    · exact Or.inr ⟨kwOr.length, by simp only [tryKws, h1, h3],
        by simp only [tryKws, h2, h4]⟩
  · exact Or.inr ⟨kwAnd.length, by simp only [tryKws, h1], by simp only [tryKws, h2]⟩

theorem scanOps_congr :
    ∀ (fuel : Nat) {s t : List Char}, s.map low = t.map low →
      ∀ (pw : Bool) (i : Nat),
        List.Forall₂ (fun x y => x.1 = y.1 ∧ x.2.1 = y.2.1 ∧
          x.2.2.length = y.2.2.length ∧ x.2.2.map low = y.2.2.map low)
          (scanOps fuel pw i s) (scanOps fuel pw i t) := by
  intro fuel
  induction fuel with
  | zero =>
    intro s t H pw i
    cases s <;> cases t <;> exact List.Forall₂.nil
  | succ fuel ih =>
    intro s t H pw i
    cases s with
    | nil =>
      cases t with
      | nil => exact List.Forall₂.nil
      | cons c2 r2 => simp at H
    | cons c r =>
      cases t with
      | nil => simp at H
      | cons c2 r2 =>
        have H2 := H
        simp only [List.map_cons, List.cons.injEq] at H2
        obtain ⟨hc, hr⟩ := H2
        cases pw with
        | true =>
          have e1 : scanOps (fuel+1) true i (c :: r) =
              scanOps fuel (isWordChar c) (i+1) r := by
            simp [scanOps]
          have e2 : scanOps (fuel+1) true i (c2 :: r2) =
              scanOps fuel (isWordChar c2) (i+1) r2 := by
            simp [scanOps]
          rw [e1, e2, isWordChar_of_low hc]
          exact ih hr _ _
        | false =>
          rcases tryKws_congr H with ⟨h1, h2⟩ | ⟨n, h1, h2⟩
          · have e1 : scanOps (fuel+1) false i (c :: r) =
                scanOps fuel (isWordChar c) (i+1) r := by
              simp [scanOps, h1]
            have e2 : scanOps (fuel+1) false i (c2 :: r2) =
                scanOps fuel (isWordChar c2) (i+1) r2 := by
              simp [scanOps, h2]
            rw [e1, e2, isWordChar_of_low hc]
            exact ih hr _ _
          · have e1 : scanOps (fuel+1) false i (c :: r) =
                (i, i + ((c :: r).take n).length, (c :: r).take n) ::
                  scanOps fuel true (i + ((c :: r).take n).length) ((c :: r).drop n) := by
              simp [scanOps, h1]
            have e2 : scanOps (fuel+1) false i (c2 :: r2) =
                (i, i + ((c2 :: r2).take n).length, (c2 :: r2).take n) ::
                  scanOps fuel true (i + ((c2 :: r2).take n).length) ((c2 :: r2).drop n) := by
              simp [scanOps, h2]
            have hsl : (c :: r).length = (c2 :: r2).length := by
              have := congrArg List.length H
              simpa using this
            have hlent : ((c :: r).take n).length = ((c2 :: r2).take n).length := by
              rw [List.length_take, List.length_take, hsl]
            rw [e1, e2]
            refine List.Forall₂.cons ⟨rfl, by rw [hlent], hlent, ?_⟩ ?_
            · rw [List.map_take, List.map_take, H]
            · rw [hlent]
              exact ih (by rw [List.map_drop, List.map_drop, H]) true _

theorem coverOps_some_low {s : List Char} :
    ∀ {ms : List (Nat × Nat × List Char)} {i : Nat}, MatchesOk s i ms →
      ∀ j c, coverOps ms j = some c → (s.get? j).map low = some (low c) := by
  intro ms
  induction ms with
  | nil =>
    intro i _ j c hc
    exact absurd hc (by simp [coverOps])
  | cons y tl ih =>
    intro i hm j c hc
    obtain ⟨a, e, m⟩ := y
    obtain ⟨h1, h2, h3, h4, h5, h6⟩ := hm
    rw [coverOps_cons] at hc
    by_cases hskip : m = m.map up
    · rw [if_pos hskip] at hc
      exact ih h6 j c hc
    · rw [if_neg hskip] at hc
      by_cases hin : a ≤ j ∧ j < e
      · rw [if_pos hin] at hc
        rw [List.get?_map] at hc
        cases hm0 : m.get? (j - a) with
        | none => rw [hm0] at hc; exact absurd hc (by simp)
        | some c0 =>
          rw [hm0] at hc
          have hc0 : up c0 = c := by
            simpa using hc
          have hjk : j = a + (j - a) := by omega
          have hlt : j - a < m.length := by omega
          rw [hjk, h5 (j - a) hlt, hm0]
          rw [← hc0, low_up]
          rfl
      · rw [if_neg hin] at hc
        exact ih h6 j c hc

theorem applyOps_map_low {s : List Char} {ms : List (Nat × Nat × List Char)} {i : Nat}
    (hm : MatchesOk s i ms) :
    ((applyOps ms s).1).map low = s.map low := by
  obtain ⟨hlen, hget⟩ := applyOps_get s hm rfl
  apply List.ext_get?
  intro j
  rw [List.get?_map, List.get?_map, hget j]
  cases hc : coverOps ms j with
  | none => simp only [hc]
  | some c =>
    simp only [hc]
    exact (coverOps_some_low hm j c hc).symm

/-- C9: `check_operator` is idempotent on messages: running it a second
time on the state produced by a first run yields zero messages, because
the first run's in-place upper-casing leaves a string in which every
word-bounded `and`/`or`/`not` match equals its upper-cased form. -/
theorem claim_C9_idempotent (st : VState) :
    (check_operator (check_operator st).1).2 = [] := by
  have hmok : MatchesOk st.query_str 0 (scan_ops st.query_str) :=
    scan_ops_matchesOk st.query_str
  obtain ⟨hlen, hget⟩ := applyOps_get (s := st.query_str) st.query_str hmok rfl
  show (applyOps
      (scan_ops ((applyOps (scan_ops st.query_str) st.query_str).1))
      ((applyOps (scan_ops st.query_str) st.query_str).1)).2 = []
  rw [applyOps_msgs, List.map_eq_nil, List.filter_eq_nil]
  intro y hy
  have hmok2 : MatchesOk ((applyOps (scan_ops st.query_str) st.query_str).1) 0
      (scan_ops ((applyOps (scan_ops st.query_str) st.query_str).1)) :=
    scan_ops_matchesOk _
  have hyf := matchesOk_mem hmok2 y hy
  have H : ((applyOps (scan_ops st.query_str) st.query_str).1).map low =
      st.query_str.map low := applyOps_map_low hmok
  have hs2 : scan_ops ((applyOps (scan_ops st.query_str) st.query_str).1) =
      scanOps st.query_str.length false 0
        ((applyOps (scan_ops st.query_str) st.query_str).1) := by
    show scanOps ((applyOps (scan_ops st.query_str) st.query_str).1).length false 0
        ((applyOps (scan_ops st.query_str) st.query_str).1) =
      scanOps st.query_str.length false 0
        ((applyOps (scan_ops st.query_str) st.query_str).1)
    rw [hlen]
  have hcong := scanOps_congr st.query_str.length H false 0
  rw [← hs2] at hcong
  obtain ⟨x, hx, hR⟩ := forall2_mem_left hcong y hy
  have hx2 : x ∈ scan_ops st.query_str := hx
  obtain ⟨hR1, hR2, hR3, hR4⟩ := hR
  have hyx : y.2.2 = x.2.2.map up := by
    apply List.ext_get?
    intro k
    by_cases hk : k < y.2.2.length
    · have hkx : k < x.2.2.length := by omega
      have hs3 := (hyf.2.2.2.2 k hk).symm
      rw [hs3, hR1, hget (x.1 + k)]
      exact coverOps_span hmok x hx2 k hkx
    · have h1 : y.2.2.get? k = none := by
        rw [List.get?_eq_none]
        omega
      have h2 : (x.2.2.map up).get? k = none := by
        rw [List.get?_eq_none, List.length_map]
        omega
      rw [h1, h2]
  have hfix : y.2.2 = y.2.2.map up := by
    rw [hyx, map_up_idem]
  have hd : decide (y.2.2 = y.2.2.map up) = true := decide_eq_true hfix
  simp only [hd, Bool.not_true]
  exact Bool.false_ne_true

theorem claim_C9_idempotent_witness :
    (check_operator (check_operator ⟨"cancer and lung".toList, []⟩).1).2 = [] :=
  claim_C9_idempotent ⟨"cancer and lung".toList, []⟩

theorem get_of_drop {s : List Char} {i : Nat} {c : Char} {rest : List Char}
    (h : s.drop i = c :: rest) : s.get? i = some c := by
  have h0 : (s.drop i).get? 0 = s.get? (i + 0) := List.get?_drop ..
  rw [h] at h0
  simpa using h0.symm

theorem get_none_of_drop {s : List Char} {i : Nat} (h : s.drop i = []) :
    s.get? i = none := by
  have h0 : (s.drop i).get? 0 = s.get? (i + 0) := List.get?_drop ..
  rw [h] at h0
  simpa using h0.symm

theorem upper_not_digit {c : Char} (h : isUpperL c = true) : isDigitC c = false := by
  have h1 : 65 ≤ c.toNat ∧ c.toNat ≤ 90 := by simpa [isUpperL] using h
  simp only [isDigitC, Bool.and_eq_false_iff, decide_eq_false_iff_not]
  omega

theorem upper_isWordChar {c : Char} (h : isUpperL c = true) : isWordChar c = true := by
  have h1 : 65 ≤ c.toNat ∧ c.toNat ≤ 90 := by simpa [isUpperL] using h
  simp only [isWordChar, Bool.or_eq_true, Bool.and_eq_true, decide_eq_true_eq]
  omega

theorem boundaryOk_drop {s : List Char} {j : Nat} {r : List Char} (h : s.drop j = r) :
    boundaryOk r = !isWordCharO (s.get? j) := by
  cases r with
  | nil => rw [get_none_of_drop h]; rfl
  | cons d r2 => rw [get_of_drop h]; rfl

theorem tryField_cond_eq (c b : Char) (rest2 : List Char) :
    (isUpperL c && isUpperL b && boundaryOk rest2 &&
      !orMatch (c :: b :: rest2) && !sdMatch (c :: b :: rest2)) =
    (isUpperL c && isUpperL b && boundaryOk rest2 &&
      !(c == 'O' && b == 'R') && !(c == 'S' && isDigitC b)) := by
  cases hub : isUpperL b
  · simp [hub]
  · have hdg : isDigitC b = false := upper_not_digit hub
    cases hbk : boundaryOk rest2
    · simp [hbk]
    · simp [orMatch, sdMatch, hub, hdg, hbk]

theorem fieldTokM_isSome {s : List Char} {i : Nat} {c : Char} {rest : List Char}
    (hdrop : s.drop i = c :: rest) :
    fieldTokM s i = (tryField (c :: rest)).isSome := by
  have hgi : s.get? i = some c := get_of_drop hdrop
  have hdrop1 : s.drop (i+1) = rest := drop_succ_of_drop hdrop
  cases rest with
  | nil =>
    have hgi1 : s.get? (i+1) = none := get_none_of_drop hdrop1
    have hgi2 : s[i]? = some c := by rw [← List.get?_eq_getElem?]; exact hgi
    have hgi3 : s[i+1]? = none := by rw [← List.get?_eq_getElem?]; exact hgi1
    simp [fieldTokM, hgi, hgi1, hgi2, hgi3, tryField]
  | cons b rest2 =>
    have hgi1 : s.get? (i+1) = some b := get_of_drop hdrop1
    have hdrop2 : s.drop (i+2) = rest2 := drop_succ_of_drop hdrop1
    have hbk : boundaryOk rest2 = !isWordCharO (s.get? (i+2)) := boundaryOk_drop hdrop2
    have hM : fieldTokM s i = (isUpperL c && isUpperL b && boundaryOk rest2 &&
        !(c == 'O' && b == 'R') && !(c == 'S' && isDigitC b)) := by
      simp only [fieldTokM, hgi, hgi1, ← hbk]
    cases hc : (isUpperL c && isUpperL b && boundaryOk rest2 &&
        !orMatch (c :: b :: rest2) && !sdMatch (c :: b :: rest2)) <;>
      rw [hM, ← tryField_cond_eq, hc] <;> simp [tryField, hc]

theorem scanFields_eq {s : List Char} :
    ∀ (fuel i : Nat), s.length ≤ i + fuel →
      scanFields fuel (prevw s i) i (s.drop i) =
        ((List.range' i (s.length - i)).filter (fun a => fieldTokenAt2 s a)).map
          (fun a => (a, a + 2, tokAt s a)) := by
  intro fuel
  induction fuel with
  | zero =>
    intro i hfuel
    have h0 : s.length - i = 0 := by omega
    rw [h0]
    cases hdrop : s.drop i <;> rfl
  | succ fuel ih =>
    intro i hfuel
    by_cases hil : s.length ≤ i
    · have h0 : s.length - i = 0 := by omega
      have hdrop : s.drop i = [] := List.drop_eq_nil_of_le hil
      rw [hdrop, h0]
      rfl
    · push_neg at hil
      cases hdrop : s.drop i with
      | nil =>
        exfalso
        have hlend := congrArg List.length hdrop
        simp [List.length_drop] at hlend
        omega
      | cons c rest =>
        have hgi : s.get? i = some c := get_of_drop hdrop
        have hgiE : s[i]? = some c := by rw [← List.get?_eq_getElem?]; exact hgi
        have hdrop1 : s.drop (i+1) = rest := drop_succ_of_drop hdrop
        have hsplit : s.length - i = (s.length - (i+1)) + 1 := by omega
        rw [hsplit, List.range'_succ]
        cases hpw : prevw s i with
        | true =>
          have hft : fieldTokenAt2 s i = false := by
            simp [fieldTokenAt2, hpw]
          have e1 : scanFields (fuel+1) true i (c :: rest) =
              scanFields fuel (isWordChar c) (i+1) rest := by
            simp [scanFields]
          have hpw1 : prevw s (i+1) = isWordChar c := by
            simp [prevw, hgiE, isWordCharO]
          rw [e1, ← hpw1, ← hdrop1, ih (i+1) (by omega),
            List.filter_cons_of_neg (by simp [hft])]
        | false =>
          cases hmt : tryField (c :: rest) with
          | none =>
            have hM : fieldTokM s i = false := by
              rw [fieldTokM_isSome hdrop, hmt]
              rfl
            have hft : fieldTokenAt2 s i = false := by
              simp [fieldTokenAt2, hM]
            have e1 : scanFields (fuel+1) false i (c :: rest) =
                scanFields fuel (isWordChar c) (i+1) rest := by
              simp [scanFields, hmt]
            have hpw1 : prevw s (i+1) = isWordChar c := by
              simp [prevw, hgiE, isWordCharO]
            rw [e1, ← hpw1, ← hdrop1, ih (i+1) (by omega),
              List.filter_cons_of_neg (by simp [hft])]
          | some mr =>
            obtain ⟨m, r2⟩ := mr
            obtain ⟨a, b, rest2, hcons, hm, hr2, hcond⟩ := tryField_some hmt
            injection hcons with hce hrest
            subst hce
            subst hrest
            subst hm
            subst hr2
            have hgi1 : s.get? (i+1) = some b := get_of_drop hdrop1
            have hgi1E : s[i+1]? = some b := by rw [← List.get?_eq_getElem?]; exact hgi1
            have hdrop2 : s.drop (i+2) = r2 := drop_succ_of_drop hdrop1
            have htok : tokAt s i = [c, b] := by
              simp [tokAt, hgiE, hgi1E]
            have hM : fieldTokM s i = true := by
              rw [fieldTokM_isSome hdrop, hmt]
              rfl
            have hft : fieldTokenAt2 s i = true := by
              simp [fieldTokenAt2, hM, hpw]
            simp only [Bool.and_eq_true] at hcond
            obtain ⟨⟨⟨⟨huc, hub⟩, hbk⟩, hor⟩, hsd⟩ := hcond
            have e1 : scanFields (fuel+1) false i (c :: b :: r2) =
                (i, i + 2, [c, b]) :: scanFields fuel true (i + 2) r2 := by
              simp [scanFields, hmt]
            have hib : i + 1 < s.length := by
              obtain ⟨hlt, h2⟩ := List.get?_eq_some.mp hgi1
              exact hlt
            have hsplit2 : s.length - (i+1) = (s.length - (i+2)) + 1 := by omega
            have hpw2 : prevw s (i+1) = true := by
              simp [prevw, hgiE, isWordCharO, upper_isWordChar huc]
            have hft1 : fieldTokenAt2 s (i+1) = false := by
              simp [fieldTokenAt2, hpw2]
            have hpw3 : prevw s (i+2) = true := by
              simp [prevw, hgi1E, isWordCharO, upper_isWordChar hub]
            rw [e1, List.filter_cons_of_pos (by simp [hft]), List.map_cons, htok,
              hsplit2, List.range'_succ, List.filter_cons_of_neg (by simp [hft1]),
              ← hpw3, ← hdrop2, ih (i+2) (by omega)]

theorem scan_fields_eq (s : List Char) :
    scan_fields s = ((List.range s.length).filter (fun a => fieldTokenAt2 s a)).map
      (fun a => (a, a + 2, tokAt s a)) := by
  have h := scanFields_eq (s := s) s.length 0 (by omega)
  rw [List.drop_zero] at h
  have hp : prevw s 0 = false := rfl
  rw [hp] at h
  rw [List.range_eq_range']
  have h0 : s.length - 0 = s.length := by omega
  rw [h0] at h
  exact h

theorem scan_fields_matchesOk (s : List Char) : MatchesOk s 0 (scan_fields s) := by
  have h := scanFields_matchesOk (s := s) s.length false 0 (Nat.zero_le _)
  rw [List.drop_zero] at h
  exact h

theorem fieldTokM_get {s : List Char} {a : Nat} (h : fieldTokM s a = true) :
    ∃ c1 c2, s.get? a = some c1 ∧ s.get? (a + 1) = some c2 := by
  unfold fieldTokM at h
  cases h1 : s.get? a with
  | none =>
    rw [h1] at h
    exact absurd h (by simp)
  | some c1 =>
    cases h2 : s.get? (a + 1) with
    | none =>
      rw [h1, h2] at h
      exact absurd h (by simp)
    | some c2 => exact ⟨c1, c2, rfl, rfl⟩

theorem fieldTokenAt2_get {s : List Char} {a : Nat} (h : fieldTokenAt2 s a = true) :
    ∃ c1 c2, s.get? a = some c1 ∧ s.get? (a + 1) = some c2 := by
  simp only [fieldTokenAt2, Bool.and_eq_true] at h
  exact fieldTokM_get h.2

theorem tokAt_len2 {s : List Char} {a : Nat} (h : fieldTokenAt2 s a = true) :
    (tokAt s a).length = 2 := by
  obtain ⟨c1, c2, h1, h2⟩ := fieldTokenAt2_get h
  have h1E : s[a]? = some c1 := by rw [← List.get?_eq_getElem?]; exact h1
  have h2E : s[a+1]? = some c2 := by rw [← List.get?_eq_getElem?]; exact h2
  simp [tokAt, h1E, h2E]

theorem coverFields_cons (a e : Nat) (m : List Char) (tl : List (Nat × Nat × List Char))
    (j : Nat) :
    coverFields ((a, e, m) :: tl) j =
      if m ∈ supported_fields then coverFields tl j
      else if a ≤ j ∧ j < e then (['A', 'B'] : List Char).get? (j - a)
        else coverFields tl j := rfl

theorem coverFields_none_lt {s : List Char} :
    ∀ {ms : List (Nat × Nat × List Char)} {i : Nat}, MatchesOk s i ms →
      ∀ j, j < i → coverFields ms j = none := by
  intro ms
  induction ms with
  | nil => intro i _ j _; rfl
  | cons y tl ih =>
    intro i hm j hj
    obtain ⟨a, e, m⟩ := y
    obtain ⟨h1, h2, h3, h4, h5, h6⟩ := hm
    rw [coverFields_cons]
    by_cases hskip : m ∈ supported_fields
    · rw [if_pos hskip]
      exact ih h6 j (by omega)
    · rw [if_neg hskip, if_neg (by rintro ⟨hc1, _⟩; omega)]
      exact ih h6 j (by omega)

theorem coverFields_none_outside {j : Nat} :
    ∀ {ms : List (Nat × Nat × List Char)},
      (∀ x ∈ ms, x.2.2 ∉ supported_fields → ¬(x.1 ≤ j ∧ j < x.2.1)) →
      coverFields ms j = none := by
  intro ms
  induction ms with
  | nil => intro _; rfl
  | cons y tl ih =>
    intro hout
    obtain ⟨a, e, m⟩ := y
    rw [coverFields_cons]
    by_cases hskip : m ∈ supported_fields
    · rw [if_pos hskip]
      exact ih (fun x hx => hout x (List.mem_cons_of_mem _ hx))
    · rw [if_neg hskip, if_neg (hout (a, e, m) (List.mem_cons_self _ _) hskip)]
      exact ih (fun x hx => hout x (List.mem_cons_of_mem _ hx))

theorem applyFields_msgs :
    ∀ (ms : List (Nat × Nat × List Char)) (t : List Char),
      (applyFields ms t).2 = (ms.filter (fun x => !decide (x.2.2 ∈ supported_fields))).map
        (fun x => mkFieldMsg x.2.2 x.1 x.2.1) := by
  intro ms
  induction ms with
  | nil => intro t; rfl
  | cons y tl ih =>
    intro t
    obtain ⟨a, e, m⟩ := y
    by_cases hskip : m ∈ supported_fields
    · have hd : decide (m ∈ supported_fields) = true := decide_eq_true hskip
      simp only [applyFields, if_pos hskip, List.filter_cons, hd, Bool.not_true,
        Bool.false_eq_true, if_false]
      exact ih t
    · simp only [applyFields, if_neg hskip, List.filter_cons]
      rw [ih]
      simp [hskip]

theorem applyFields_get {s : List Char} :
    ∀ {ms : List (Nat × Nat × List Char)} {i : Nat} (t : List Char),
      MatchesOk s i ms → (∀ x ∈ ms, x.2.2.length = 2) → t.length = s.length →
      (applyFields ms t).1.length = t.length ∧
        ∀ j, (applyFields ms t).1.get? j =
          match coverFields ms j with
          | some c => some c
          | none => t.get? j := by
  intro ms
  induction ms with
  | nil =>
    intro i t _ _ _
    exact ⟨rfl, fun j => rfl⟩
  | cons y tl ih =>
    intro i t hm hl2 htlen
    obtain ⟨a, e, m⟩ := y
    obtain ⟨h1, h2, h3, h4, h5, h6⟩ := hm
    have hm2 : m.length = 2 := hl2 (a, e, m) (List.mem_cons_self _ _)
    have hl2t : ∀ x ∈ tl, x.2.2.length = 2 :=
      fun x hx => hl2 x (List.mem_cons_of_mem _ hx)
    by_cases hskip : m ∈ supported_fields
    · have hres : applyFields ((a, e, m) :: tl) t = applyFields tl t := by
        simp only [applyFields, if_pos hskip]
      rw [hres]
      obtain ⟨hlen, hget⟩ := ih t h6 hl2t htlen
      refine ⟨hlen, fun j => ?_⟩
      have hcov : coverFields ((a, e, m) :: tl) j = coverFields tl j := by
        rw [coverFields_cons, if_pos hskip]
      rw [hget j, hcov]
    · have hb : a + (['A', 'B'] : List Char).length ≤ t.length := by
        simp only [List.length_cons, List.length_nil]
        omega
      have ht2len : (replaceSpan t a ['A', 'B']).length = t.length := replaceSpan_length hb
      obtain ⟨hlen, hget⟩ := ih (replaceSpan t a ['A', 'B']) h6 hl2t (by rw [ht2len, htlen])
      have hres1 : (applyFields ((a, e, m) :: tl) t).1 =
          (applyFields tl (replaceSpan t a ['A', 'B'])).1 := by
        simp only [applyFields, if_neg hskip]
      rw [hres1]
      refine ⟨by rw [hlen, ht2len], fun j => ?_⟩
      rw [hget j, coverFields_cons, if_neg hskip]
      by_cases hin : a ≤ j ∧ j < e
      · have hnone : coverFields tl j = none := coverFields_none_lt h6 j (by omega)
        obtain ⟨cc, hcc⟩ : ∃ cc, (['A', 'B'] : List Char).get? (j - a) = some cc :=
          ⟨(['A', 'B'] : List Char).get ⟨j - a, by simp; omega⟩,
            List.get?_eq_some.mpr ⟨by simp; omega, rfl⟩⟩
        rw [if_pos hin]
        simp only [hnone, hcc]
        rw [replaceSpan_get hb j, if_pos ⟨hin.1, by simp; omega⟩]
        exact hcc
      · rw [if_neg hin]
        have hout : (replaceSpan t a ['A', 'B']).get? j = t.get? j := by
          rw [replaceSpan_get hb j, if_neg (by
            simp only [List.length_cons, List.length_nil]
            rintro ⟨hc1, hc2⟩
            exact hin ⟨hc1, by omega⟩)]
        cases hc : coverFields tl j with
        | some c => simp only [hc]
        | none => simp only [hc, hout]

theorem coverFields_span {s : List Char} :
    ∀ {ms : List (Nat × Nat × List Char)} {i : Nat}, MatchesOk s i ms →
      (∀ x ∈ ms, x.2.2.length = 2) →
      ∀ x ∈ ms, x.2.2 ∉ supported_fields → ∀ k, k < 2 →
        coverFields ms (x.1 + k) = (['A', 'B'] : List Char).get? k := by
  intro ms
  induction ms with
  | nil =>
    intro i _ _ x hx
    exact absurd hx (List.not_mem_nil x)
  | cons y tl ih =>
    intro i hm hl2 x hx hxs k hk
    obtain ⟨xa, xe, xm⟩ := x
    obtain ⟨a0, e0, m0⟩ := y
    obtain ⟨h1, h2, h3, h4, h5, h6⟩ := hm
    have hl2t : ∀ x ∈ tl, x.2.2.length = 2 :=
      fun x hx => hl2 x (List.mem_cons_of_mem _ hx)
    rcases List.mem_cons.mp hx with he | hmem
    · simp only [Prod.mk.injEq] at he
      obtain ⟨he1, he2, he3⟩ := he
      subst he1
      subst he2
      subst he3
      have hm02 : xm.length = 2 := hl2 (xa, xe, xm) (List.mem_cons_self _ _)
      rw [coverFields_cons, if_neg hxs, if_pos ⟨Nat.le_add_right xa k, by omega⟩]
      have hka : xa + k - xa = k := by omega
      rw [hka]
    · have hxf := matchesOk_mem h6 (xa, xe, xm) hmem
      have hm02 : xm.length = 2 := hl2t (xa, xe, xm) hmem
      rw [coverFields_cons]
      by_cases hskip : m0 ∈ supported_fields
      · rw [if_pos hskip]
        exact ih h6 hl2t (xa, xe, xm) hmem hxs k hk
      · rw [if_neg hskip, if_neg (by
          rintro ⟨hc1, hc2⟩
          have hea : e0 ≤ xa := hxf.1
          omega)]
        exact ih h6 hl2t (xa, xe, xm) hmem hxs k hk

theorem scan_fields_len2 (s : List Char) : ∀ x ∈ scan_fields s, x.2.2.length = 2 := by
  intro x hx
  rw [scan_fields_eq] at hx
  obtain ⟨a, ha, rfl⟩ := List.mem_map.mp hx
  have hft : fieldTokenAt2 s a = true := by
    have hfa := (List.mem_filter.mp ha).2
    simpa using hfa
  exact tokAt_len2 hft

theorem mem_scan_fields {s : List Char} {x : Nat × Nat × List Char} :
    x ∈ scan_fields s ↔
      ∃ a, a < s.length ∧ fieldTokenAt2 s a = true ∧ x = (a, a + 2, tokAt s a) := by
  rw [scan_fields_eq]
  constructor
  · intro hx
    obtain ⟨a, ha, he⟩ := List.mem_map.mp hx
    obtain ⟨har, haf⟩ := List.mem_filter.mp ha
    exact ⟨a, List.mem_range.mp har, by simpa using haf, he.symm⟩
  · rintro ⟨a, hal, haf, rfl⟩
    exact List.mem_map.mpr ⟨a,
      List.mem_filter.mpr ⟨List.mem_range.mpr hal, by simpa using haf⟩, rfl⟩

/-- C8: in non-strict mode `filter_search_field` leaves the string length
and `search_field_general` unchanged, writes `AB` over the span of every
word-bounded two-letter upper-case token that is not `OR`, not `S<digits>`
and not in the supported set, leaves every position outside those spans
(in particular every supported code) unchanged, and appends exactly one
Error per replaced token, carrying its span, in string order. -/
theorem claim_C8_filter_search_field (st : VState) :
    (filter_search_field st).1.query_str.length = st.query_str.length ∧
      (filter_search_field st).1.search_field_general = st.search_field_general ∧
      (∀ a, unsupportedFieldTokenAt st.query_str a = true →
        (filter_search_field st).1.query_str.get? a = some 'A' ∧
          (filter_search_field st).1.query_str.get? (a + 1) = some 'B') ∧
      (∀ j, (∀ a ∈ unsupportedPositions st.query_str, ¬(a ≤ j ∧ j < a + 2)) →
        (filter_search_field st).1.query_str.get? j = st.query_str.get? j) ∧
      (filter_search_field st).2 = (unsupportedPositions st.query_str).map
        (fun a => mkFieldMsg (tokAt st.query_str a) a (a + 2)) := by
  have hmok : MatchesOk st.query_str 0 (scan_fields st.query_str) :=
    scan_fields_matchesOk st.query_str
  have hall2 : ∀ x ∈ scan_fields st.query_str, x.2.2.length = 2 :=
    scan_fields_len2 st.query_str
  obtain ⟨hlen, hget⟩ :=
    applyFields_get (s := st.query_str) st.query_str hmok hall2 rfl
  refine ⟨hlen, rfl, ?_, ?_, ?_⟩
  · intro a hA
    have hA2 := hA
    simp only [unsupportedFieldTokenAt, Bool.and_eq_true, Bool.not_eq_true',
      decide_eq_false_iff_not] at hA2
    obtain ⟨hft, hnots⟩ := hA2
    obtain ⟨c1, c2, hg1, hg2⟩ := fieldTokenAt2_get hft
    obtain ⟨halt, hrest⟩ := List.get?_eq_some.mp hg1
    have hx : ((a, a + 2, tokAt st.query_str a) : Nat × Nat × List Char) ∈
        scan_fields st.query_str :=
      mem_scan_fields.mpr ⟨a, halt, hft, rfl⟩
    have hcA : coverFields (scan_fields st.query_str) (a + 0) = some 'A' :=
      coverFields_span hmok hall2 (a, a + 2, tokAt st.query_str a) hx hnots 0 (by omega)
    have hcB : coverFields (scan_fields st.query_str) (a + 1) = some 'B' :=
      coverFields_span hmok hall2 (a, a + 2, tokAt st.query_str a) hx hnots 1 (by omega)
    constructor
    · have hj := hget (a + 0)
      rw [hcA] at hj
      exact hj
    · have hj := hget (a + 1)
      rw [hcB] at hj
      exact hj
  · intro j hout
    have hcov : coverFields (scan_fields st.query_str) j = none := by
      apply coverFields_none_outside
      intro x hx hxs
      obtain ⟨a, halt, hft, rfl⟩ := mem_scan_fields.mp hx
      have hmem : a ∈ unsupportedPositions st.query_str := by
        simp only [unsupportedPositions, List.mem_filter, List.mem_range]
        refine ⟨halt, ?_⟩
        simp [unsupportedFieldTokenAt, hft, hxs]
      exact hout a hmem
    have hj := hget j
    rw [hcov] at hj
    exact hj
  · show (applyFields (scan_fields st.query_str) st.query_str).2 = _
    rw [applyFields_msgs, scan_fields_eq, List.filter_map, List.map_map,
      List.filter_filter]
    have hpred : ∀ a ∈ List.range st.query_str.length,
        (((fun x : Nat × Nat × List Char => !decide (x.2.2 ∈ supported_fields)) ∘
            (fun a => (a, a + 2, tokAt st.query_str a))) a &&
          fieldTokenAt2 st.query_str a) = unsupportedFieldTokenAt st.query_str a := by
      intro a _
      simp [unsupportedFieldTokenAt, Bool.and_comm]
    rw [List.filter_congr hpred]
    rfl

theorem claim_C8_filter_search_field_witness :
    unsupportedFieldTokenAt "AB and XY".toList 7 = true ∧
      (filter_search_field ⟨"AB and XY".toList, []⟩).1.query_str.get? 7 = some 'A' ∧
      (filter_search_field ⟨"AB and XY".toList, []⟩).1.query_str.get? 0 =
        "AB and XY".toList.get? 0 :=
  ⟨by decide,
    ((claim_C8_filter_search_field ⟨"AB and XY".toList, []⟩).2.2.1 7 (by decide)).1,
    (claim_C8_filter_search_field ⟨"AB and XY".toList, []⟩).2.2.2.1 0 (by decide)⟩
